import Mathlib

/-!
Shallow embedding of the `http_req` HTTP client library (Rust) in Lean 4,
covering the chunked transfer-encoding decoder (`src/chunked.rs`), the
response head parser (`src/response.rs`), the URI parser (`src/uri.rs`),
the deadline loop (`src/stream.rs`) and the request sender
(`src/request.rs`).

Modelling conventions:
* Rust byte slices and byte vectors are `List Nat` with values below 256.
* Rust `&str` values are modelled as their UTF-8 byte sequences, also
  `List Nat`.  String operations (`trim`, `lines`, `splitn`, `find`,
  slicing by byte index) are modelled at the byte level; theorems that
  quantify over arbitrary strings restrict the inputs to ASCII bytes
  (each byte < 128), where byte indices and character boundaries agree.
* Machine integers (`usize`, `u16`) are `Nat`; the places where the Rust
  code could overflow or underflow are modelled explicitly.
* Fallible Rust code returns an explicit result type; a Rust panic
  (index out of bounds, unwrap of `None`) is the `crash` outcome.
* Loops are modelled by structural recursion, or by fuel when the Rust
  loop has no structural measure; theorems supply sufficient fuel.
-/

namespace HttpReq

/-- `CR_LF` from `lib.rs`: the two bytes `\r\n`. -/
def crlfB : List Nat := [13, 10]

/-- `CR_LF_2` from `response.rs`: the four bytes `\r\n\r\n`. -/
def crlf2B : List Nat := [13, 10, 13, 10]

/-- Outcome of running a piece of Rust code that may panic: `crash` is a
Rust panic (index out of bounds, `unwrap` of `None`), `err` an `Err`
return value, `ok` an `Ok` return value. -/
inductive RRes (ε : Type) (α : Type) where
  | crash : RRes ε α
  | err : ε → RRes ε α
  | ok : α → RRes ε α
deriving Repr, DecidableEq

/-- `ParseErr` from `error.rs`.  The snapshot of `error.rs` declares
`Utf8`, `Int`, `StatusErr`, `HeadersErr`, `UriErr` and `Empty`;
`response.rs` additionally references `ParseErr::Invalid`, which the rest
of the repository (and the specification, section 7) declares, so it is
included here.  The payloads of `Utf8` and `Int` carry no information
used by the library, so they are modelled as bare constructors. -/
inductive ParseErr where
  | utf8
  | int
  | statusErr
  | headersErr
  | uriErr
  | invalid
  | empty
deriving Repr, DecidableEq

/-- `ErrorKind` of `std::io::Error`, restricted to the kinds the modelled
code produces. -/
inductive IOKind where
  | invalidData
  | unexpectedEof
deriving Repr, DecidableEq

/-- `std::io::Error`: a kind plus a message. -/
structure IOError where
  kind : IOKind
  msg : String
deriving Repr, DecidableEq

/-- `Error` from `error.rs` (the variants reachable from the modelled
code). -/
inductive Error where
  | io : IOError → Error
  | parse : ParseErr → Error
  | timeout
deriving Repr, DecidableEq

/-! ## Nat-level string operations (std library behaviour) -/

/-- Whether a byte is ASCII whitespace.  `str::trim` uses
`char::is_whitespace`; on ASCII text this is space, tab, line feed,
vertical tab, form feed and carriage return. -/
def isWs (b : Nat) : Bool := b == 32 || b == 9 || b == 10 || b == 11 || b == 12 || b == 13

/-- `str::trim` on ASCII text: drop whitespace from both ends. -/
def rustTrim (s : List Nat) : List Nat :=
  ((s.dropWhile isWs).reverse.dropWhile isWs).reverse

/-- First index at which `pat` occurs as a contiguous run inside `hay`
(`str::find` for a substring pattern, byte index). -/
def findSub (hay pat : List Nat) : Option Nat :=
  (List.range (hay.length - pat.length + 1)).find? (fun i => pat.isPrefixOf (hay.drop i))

/-- `str::contains` for a substring pattern. -/
def containsSub (hay pat : List Nat) : Bool := (findSub hay pat).isSome

/-- `str::splitn(n, sep)` for a single-byte separator: split at the first
occurrence of `sep` at most `n - 1` times. -/
def splitN : Nat → Nat → List Nat → List (List Nat)
  | 0, _, _ => []
  | 1, _, s => [s]
  | n + 2, sep, s =>
    match s.findIdx? (fun b => b == sep) with
    | none => [s]
    | some i => s.take i :: splitN (n + 1) sep (s.drop (i + 1))

/-- One line of `str::lines`: a trailing `\r` is removed. -/
def stripCr (l : List Nat) : List Nat :=
  if l.getLast? = some 13 then l.dropLast else l

/-- `str::lines`: split on `\n`, drop a final empty piece (no line after a
terminating `\n`), and strip one trailing `\r` from each line. -/
def rustLines (s : List Nat) : List (List Nat) :=
  if s.isEmpty then []
  else
    let pieces := s.splitOn 10
    let pieces := if pieces.getLast? = some [] then pieces.dropLast else pieces
    pieces.map stripCr

/-- `u16::from_str`: an optional leading `+`, then one or more ASCII
digits, and the value must fit in 16 bits.  Returns `none` on any
failure (the caller only distinguishes success from failure). -/
def parseU16 (s : List Nat) : Option Nat :=
  let digits := if s.head? = some 43 then s.tail else s
  if digits.isEmpty then none
  else if digits.all (fun b => 48 ≤ b ∧ b ≤ 57) then
    let v := digits.foldl (fun a b => a * 10 + (b - 48)) 0
    if v ≤ 65535 then some v else none
  else none

/-! ## `std::io::BufReader` over an in-memory byte source

`ChunkReader` wraps its source in a `BufReader` (default capacity 8192)
and consults the internal buffer (`buffer()`).  The source itself is a
pure byte list, as in the repository's unit tests (`&[u8]`), whose `read`
returns the requested prefix of the remaining bytes and never errors. -/

/-- Default `BufReader` capacity in std. -/
def bufCap : Nat := 8192

/-- A `BufReader` over an in-memory source: `buf` is the buffered but not
yet consumed bytes (`buffer()`), `inner` the bytes the source has not yet
produced. -/
structure BufRd where
  buf : List Nat
  inner : List Nat
deriving Repr, DecidableEq

/-- All bytes still obtainable from the reader. -/
def BufRd.concat (b : BufRd) : List Nat := b.buf ++ b.inner

/-- `BufRead::fill_buf`: if the buffer is empty, refill it with up to
`bufCap` bytes from the source; return the buffer contents. -/
def BufRd.fillBuf (b : BufRd) : List Nat × BufRd :=
  if b.buf.isEmpty then
    let chunk := b.inner.take bufCap
    (chunk, ⟨chunk, b.inner.drop bufCap⟩)
  else (b.buf, b)

/-- `BufRead::consume`. -/
def BufRd.consume (b : BufRd) (amt : Nat) : BufRd := ⟨b.buf.drop amt, b.inner⟩

/-- `BufReader::read`: with an empty buffer and a request of at least the
capacity, bypass the buffer and read from the source directly; otherwise
fill the buffer and hand out a prefix of it. -/
def BufRd.read (b : BufRd) (k : Nat) : List Nat × BufRd :=
  if b.buf.isEmpty ∧ bufCap ≤ k then
    (b.inner.take k, ⟨[], b.inner.drop k⟩)
  else
    let out := ((b.fillBuf).1).take k
    (out, ((b.fillBuf).2).consume out.length)

/-- The loop of `Read::read_exact`, fuel-indexed (every successful
`read` returns at least one byte, so `k` units of fuel bound the
iterations; the fuel-exhausted branch is unreachable from
`BufRd.readExact`). -/
def BufRd.readExactAux : Nat → BufRd → Nat → Option (List Nat) × BufRd
  | 0, b, k => if k = 0 then (some [], b) else (none, b)
  | fuel + 1, b, k =>
    if k = 0 then (some [], b)
    else
      let out := (b.read k).1
      if out.length = 0 then (none, (b.read k).2)
      else
        let r := BufRd.readExactAux fuel ((b.read k).2) (k - out.length)
        (r.1.map (out ++ ·), r.2)

/-- `Read::read_exact` of `k` bytes: repeated `read` calls either deliver
exactly `k` bytes, or reach the end of the source first, in which case
the call fails (with `UnexpectedEof`) after consuming what was left. -/
def BufRd.readExact (b : BufRd) (k : Nat) : Option (List Nat) × BufRd :=
  BufRd.readExactAux k b k

/-- `BufRead::read_until(delim)` loop: fill the buffer, scan it for the
delimiter, append and consume up to and including it; if absent, consume
the whole buffer and repeat; an empty fill ends the read.  Fuel-indexed;
`BufRd.readUntil` supplies sufficient fuel. -/
def BufRd.readUntilAux (delim : Nat) : Nat → BufRd → List Nat × BufRd
  | 0, b => ([], b)
  | fuel + 1, b =>
    let avail := (b.fillBuf).1
    let b1 := (b.fillBuf).2
    if avail.isEmpty then ([], b1)
    else
      match avail.findIdx? (fun c => c == delim) with
      | some i => (avail.take (i + 1), b1.consume (i + 1))
      | none =>
        let r := BufRd.readUntilAux delim fuel (b1.consume avail.length)
        (avail ++ r.1, r.2)

/-- `BufRead::read_until(delim)` on an in-memory source. -/
def BufRd.readUntil (delim : Nat) (b : BufRd) : List Nat × BufRd :=
  BufRd.readUntilAux delim (b.concat.length + 1) b

/-! ## The chunked decoder (`src/chunked.rs`) -/

/-- `MAX_LINE_LENGTH` from `chunked.rs`. -/
def maxLineLength : Nat := 4096

/-- `is_ascii_space` from `chunked.rs`: space, tab, line feed or carriage
return. -/
def is_ascii_space (b : Nat) : Bool :=
  match b with
  | 32 | 9 | 10 | 13 => true
  | _ => false

/-- Value of one hexadecimal digit byte, as matched by `parse_hex_uint`. -/
def hexDigitVal (v : Nat) : Option Nat :=
  if 48 ≤ v ∧ v ≤ 57 then some (v - 48)
  else if 97 ≤ v ∧ v ≤ 102 then some (v - 97 + 10)
  else if 65 ≤ v ∧ v ≤ 70 then some (v - 65 + 10)
  else none

/-- The loop of `parse_hex_uint`: digit index `i`, accumulator `n`;
rejects a 17th digit, and any non-hex byte.  `n << 4 | digit` on `usize`
is `n * 16 + digit`, exact because at most 16 digits are accepted. -/
def parseHexLoop : List Nat → Nat → Nat → Except String Nat
  | [], _, n => .ok n
  | v :: rest, i, n =>
    if i = 16 then .error "HTTP chunk length is too large"
    else
      match hexDigitVal v with
      | some vv => parseHexLoop rest (i + 1) (n * 16 + vv)
      | none => .error "Invalid byte in chunk length"

/-- `parse_hex_uint` from `chunked.rs`. -/
def parse_hex_uint (data : List Nat) : Except String Nat := parseHexLoop data 0 0

/-- `trim_trailing_whitespace` from `chunked.rs`: pop trailing
`is_ascii_space` bytes. -/
def trim_trailing_whitespace (v : List Nat) : List Nat :=
  (v.reverse.dropWhile is_ascii_space).reverse

/-- `remove_chunk_extension` from `chunked.rs`: truncate at the first
`;`. -/
def remove_chunk_extension (v : List Nat) : List Nat :=
  v.takeWhile (fun b => b ≠ 59)

/-- `read_chunk_line` from `chunked.rs`: read a line up to `\n`, reject
lines longer than `MAX_LINE_LENGTH`, trim trailing whitespace, strip the
chunk extension. -/
def read_chunk_line (b : BufRd) : Except IOError (List Nat) × BufRd :=
  let line := (b.readUntil 10).1
  let b1 := (b.readUntil 10).2
  if line.length > maxLineLength then
    (.error ⟨.invalidData, "Exceeded maximum line length"⟩, b1)
  else
    (.ok (remove_chunk_extension (trim_trailing_whitespace line)), b1)

/-- The state of `ChunkReader` from `chunked.rs`. -/
structure ChunkRd where
  check_end : Bool
  eof : Bool
  err : Option IOError
  n : Nat
  reader : BufRd
deriving Repr, DecidableEq

/-- `ChunkReader::new`. -/
def ChunkRd.new (input : List Nat) : ChunkRd :=
  ⟨false, false, none, 0, ⟨[], input⟩⟩

/-- `ChunkReader::begin_chunk`: read and parse a chunk-size line.  A line
read error is recorded and the function returns early (without touching
`eof`); otherwise `n` is set from the parsed size (or an `InvalidData`
error recorded) and `eof` becomes `n == 0`. -/
def ChunkRd.beginChunk (s : ChunkRd) : ChunkRd :=
  let b1 := (read_chunk_line s.reader).2
  match (read_chunk_line s.reader).1 with
  | .error e => { s with err := some e, reader := b1 }
  | .ok line =>
    match parse_hex_uint line with
    | .ok v => { s with n := v, reader := b1, eof := v = 0 }
    | .error msg =>
      { s with err := some ⟨.invalidData, msg⟩, reader := b1, eof := s.n = 0 }

/-- `ChunkReader::chunk_header_available`: the internal buffer holds a
`\n`. -/
def ChunkRd.headerAvailable (s : ChunkRd) : Bool :=
  s.reader.buf.any (fun c => c == 10)

/-- The `while` loop of `ChunkReader::read` (`chunked.rs` lines 30-79),
one constructor application per iteration.  `bufLen` is the length of the
caller's buffer, `consumed` the bytes delivered so far in this call,
`out` those bytes themselves.  Returns `none` when the fuel runs out
(which corresponds to the Rust loop not having terminated within `fuel`
iterations), otherwise the state at loop exit. -/
def chunkReadLoop : Nat → ChunkRd → Nat → Nat → List Nat →
    Option (ChunkRd × Nat × List Nat)
  | 0, _, _, _, _ => none
  | fuel + 1, s, bufLen, consumed, out =>
    if s.eof ∨ s.err.isSome then some (s, consumed, out)
    else
      -- `if self.check_end { ... }`
      let step1 : (ChunkRd × Nat × List Nat) ⊕ ChunkRd :=
        if s.check_end then
          if consumed > 0 ∧ s.reader.buf.length < 2 then .inl (s, consumed, out)
          else
            let b1 := (s.reader.readExact 2).2
            match (s.reader.readExact 2).1 with
            | some footer =>
              if footer ≠ crlfB then
                let badErr : Option IOError := some ⟨.invalidData, "Malformed chunked encoding"⟩
                .inl ({ s with reader := b1, err := badErr }, consumed, out)
              else .inr { s with reader := b1, check_end := false }
            | none => .inr { s with reader := b1, check_end := false }
        else .inr s
      match step1 with
      | .inl r => some r
      | .inr s1 =>
        if s1.n = 0 then
          if consumed > 0 ∧ ¬ s1.headerAvailable then some (s1, consumed, out)
          else chunkReadLoop fuel s1.beginChunk bufLen consumed out
        else if bufLen = consumed then some (s1, consumed, out)
        else
          let en := min (consumed + s1.n) bufLen
          let bytes := (s1.reader.read (en - consumed)).1
          let n0 := bytes.length
          let s2 := { s1 with reader := (s1.reader.read (en - consumed)).2, n := s1.n - n0 }
          let s3 := if s2.n = 0 ∧ s2.err.isNone then { s2 with check_end := true } else s2
          chunkReadLoop fuel s3 bufLen (consumed + n0) (out ++ bytes)

/-- `ChunkReader::read` into a caller buffer of length `bufLen`: run the
loop, then return the latched error if any, else `Ok(consumed)` together
with the delivered bytes. -/
def chunkRead (fuel : Nat) (s : ChunkRd) (bufLen : Nat) :
    Option (ChunkRd × Except IOError Nat × List Nat) :=
  match chunkReadLoop fuel s bufLen 0 [] with
  | none => none
  | some (s1, consumed, out) =>
    match s1.err with
    | some e => some (s1, .error e, out)
    | none => some (s1, .ok consumed, out)

/-- Reading a `ChunkReader` to EOF (as `read_to_end` / `io::copy` do):
call `read` with a buffer of length `bufLen` until it returns `Ok(0)` or
an error, accumulating the delivered bytes. -/
def chunkReadToEnd : Nat → ChunkRd → Nat → List Nat →
    Option (Except IOError (List Nat))
  | 0, _, _, _ => none
  | fuel + 1, s, bufLen, acc =>
    match chunkRead (fuel + 1) s bufLen with
    | none => none
    | some (_, .error e, _) => some (.error e)
    | some (s1, .ok c, out) =>
      if c = 0 then some (.ok acc)
      else chunkReadToEnd fuel s1 bufLen (acc ++ out)

/-- One lowercase hexadecimal digit byte. -/
def hexChar (d : Nat) : Nat := if d < 10 then 48 + d else 87 + d

/-- Fuel-indexed digit expansion for `hexBytes` (the fuel `n + 1` always
suffices since `n / 16 < n`). -/
def hexBytesAux : Nat → Nat → List Nat
  | 0, _ => []
  | fuel + 1, n =>
    if n < 16 then [hexChar n]
    else hexBytesAux fuel (n / 16) ++ [hexChar (n % 16)]

/-- Lowercase hexadecimal digits of `n`, most significant first (the
canonical chunk-size line contents). -/
def hexBytes (n : Nat) : List Nat := hexBytesAux (n + 1) n

/-- A well-formed chunked stream for the payload list `cs`: for each
chunk its size in lowercase hex, `\r\n`, the payload bytes, `\r\n`; then
the terminating zero-size chunk `0\r\n`. -/
def encodeChunked (cs : List (List Nat)) : List Nat :=
  (cs.map (fun c => hexBytes c.length ++ crlfB ++ c ++ crlfB)).flatten ++ [48] ++ crlfB

/-! ## Response parsing (`src/response.rs`) -/

/-- Whether a byte is a UTF-8 continuation byte. -/
def isCont (b : Nat) : Bool := 0x80 ≤ b && b ≤ 0xBF

/-- `str::from_utf8` validity check (the decoded string is the same byte
sequence, so only validity is modelled). -/
def utf8Valid : List Nat → Bool
  | [] => true
  | b :: rest =>
    if b ≤ 0x7F then utf8Valid rest
    else if 0xC2 ≤ b && b ≤ 0xDF then
      match rest with
      | c1 :: r => isCont c1 && utf8Valid r
      | _ => false
    else if b == 0xE0 then
      match rest with
      | c1 :: c2 :: r => (0xA0 ≤ c1 && c1 ≤ 0xBF) && isCont c2 && utf8Valid r
      | _ => false
    else if (0xE1 ≤ b && b ≤ 0xEC) || b == 0xEE || b == 0xEF then
      match rest with
      | c1 :: c2 :: r => isCont c1 && isCont c2 && utf8Valid r
      | _ => false
    else if b == 0xED then
      match rest with
      | c1 :: c2 :: r => (0x80 ≤ c1 && c1 ≤ 0x9F) && isCont c2 && utf8Valid r
      | _ => false
    else if b == 0xF0 then
      match rest with
      | c1 :: c2 :: c3 :: r => (0x90 ≤ c1 && c1 ≤ 0xBF) && isCont c2 && isCont c3 && utf8Valid r
      | _ => false
    else if 0xF1 ≤ b && b ≤ 0xF3 then
      match rest with
      | c1 :: c2 :: c3 :: r => isCont c1 && isCont c2 && isCont c3 && utf8Valid r
      | _ => false
    else if b == 0xF4 then
      match rest with
      | c1 :: c2 :: c3 :: r => (0x80 ≤ c1 && c1 ≤ 0x8F) && isCont c2 && isCont c3 && utf8Valid r
      | _ => false
    else false

/-- `Status` from `response.rs`: HTTP version, status code, reason. -/
structure Status where
  version : List Nat
  code : Nat
  reason : List Nat
deriving Repr, DecidableEq

/-- `Status::from_str` (`response.rs` lines 167-179): trim, split on the
first two spaces, index parts 0, 1 and 2.  Indexing a missing part is a
Rust panic (`crash`); a code that does not parse as `u16` is
`ParseErr::Int` via the `?` conversion. -/
def statusFromStr (s : List Nat) : RRes ParseErr Status :=
  let parts := splitN 3 32 (rustTrim s)
  match parts[0]?, parts[1]? with
  | some version, some codeStr =>
    match parseU16 codeStr with
    | none => .err .int
    | some code =>
      match parts[2]? with
      | some reason => .ok ⟨version, code, reason⟩
      | none => .crash
  | _, _ => .crash

/-- The headers collection of `response.rs` (`Headers(HashMap<String,
String>)`), modelled as the insertion sequence of key-value pairs; with
`collect`, a later pair with an equal key overwrites an earlier one. -/
abbrev HeaderAList := List (List Nat × List Nat)

/-- `HashMap::get` on the collected pairs: the last pair with this key
wins, as `collect` into a `HashMap` overwrites earlier keys. -/
def headersGet (l : HeaderAList) (k : List Nat) : Option (List Nat) :=
  (l.reverse.find? (fun p => p.1 == k)).map (fun p => p.2)

/-- The per-line body of the `map` in `Headers::from_str`: `split_at`
the first `:` and take `value[2..]`; `none` is the panic of `value[2..]`
when the slice is too short (or of the `unwrap` when `:` is absent,
unreachable under the `all` guard). -/
def headerLineStep (elem : List Nat) : Option (List Nat × List Nat) :=
  match elem.findIdx? (fun b => b == 58) with
  | none => none
  | some pos =>
    let value := elem.drop pos
    if value.length < 2 then none
    else some (elem.take pos, value.drop 2)

/-- `Headers::from_str` (`response.rs` lines 191-213): trim the block,
split into lines, require `:` in every line (else `ParseErr::Invalid`);
then map `headerLineStep` over the lines (a `none` is a panic). -/
def headersFromStr (s : List Nat) : RRes ParseErr HeaderAList :=
  let headers := rustLines (rustTrim s)
  if headers.all (fun e => e.contains 58) then
    match headers.mapM headerLineStep with
    | some l => .ok l
    | none => .crash
  else .err .invalid

/-- `Response` from `response.rs`: status plus headers. -/
structure Resp where
  status : Status
  headers : HeaderAList
deriving Repr, DecidableEq

/-- `Response::parse_head`: check UTF-8, split once at the first `\n`,
parse the status line, then unwrap the second piece (a panic when the
head holds no `\n`) and parse the header block. -/
def parse_head (head : List Nat) : RRes ParseErr (Status × HeaderAList) :=
  if utf8Valid head then
    let pieces := splitN 2 10 head
    match pieces[0]? with
    | none => .crash
    | some l0 =>
      match statusFromStr l0 with
      | .crash => .crash
      | .err e => .err e
      | .ok st =>
        match pieces[1]? with
        | none => .crash
        | some l1 =>
          match headersFromStr l1 with
          | .crash => .crash
          | .err e => .err e
          | .ok hs => .ok (st, hs)
  else .err .utf8

/-- `Response::from_head`. -/
def fromHead (head : List Nat) : RRes Error Resp :=
  match parse_head head with
  | .crash => .crash
  | .err e => .err (.parse e)
  | .ok (st, hs) => .ok ⟨st, hs⟩

/-- `find_slice` (`response.rs` lines 228-239): scan `i` from `0` to
`data.len() - e.len()` inclusive and return the end position of the
first match.  When `data.len() < e.len()` the Rust code panics: the
subtraction overflows in a debug build, and in a release build it wraps
so the first slice `data[0..e.len()]` is out of bounds. -/
def find_slice (data e : List Nat) : RRes Unit (Option Nat) :=
  if data.length < e.length then .crash
  else
    .ok (((List.range (data.length - e.length + 1)).find?
      (fun i => decide ((data.drop i).take e.length = e))).map (fun i => i + e.length))

/-- `Response::try_from` (`response.rs` lines 21-35): reject an empty
buffer with `ParseErr::Empty`; locate the end of the first `\r\n\r\n`
(default: the whole buffer); parse the head; on success append the byte
suffix after the head to `writer`.  Returns the result together with the
final writer contents. -/
def respTryFrom (res : List Nat) (writer : List Nat) : RRes Error Resp × List Nat :=
  if res.isEmpty then (.err (.parse .empty), writer)
  else
    match find_slice res crlf2B with
    | .crash => (.crash, writer)
    | .err _ => (.crash, writer)
    | .ok popt =>
      let pos := popt.getD res.length
      match fromHead (res.take pos) with
      | .crash => (.crash, writer)
      | .err e => (.err e, writer)
      | .ok r => (.ok r, writer ++ res.drop pos)

/-! ## URI parsing (`src/uri.rs`) -/

/-- `RangeC` from `uri.rs`.  The Rust field `end` is a Lean keyword and
is called `stop` here. -/
structure RangeC where
  start : Nat
  stop : Nat
deriving Repr, DecidableEq

/-- `&s[range]` for a `RangeC` (in the modelled code every constructed
range lies within the string, so the total take-drop form agrees with
Rust indexing). -/
def sliceR (s : List Nat) (r : RangeC) : List Nat := (s.take r.stop).drop r.start

/-- `.filter(|r| r.start != r.end)` on an already-`Some` range. -/
def rFilter (r : RangeC) : Option RangeC := if r.start ≠ r.stop then some r else none

/-- `get_chunks` (`uri.rs` lines 554-577): split the ranged slice of `s`
at the first occurrence of `separator`.  Found at `i`: before-range up to
`mid - 1` and after-range from `mid`, each dropped when empty.  Not
found: the whole range (when nonempty) and `None`. -/
def get_chunks (s : List Nat) (range : Option RangeC) (sep : List Nat) :
    Option RangeC × Option RangeC :=
  match range with
  | none => (none, none)
  | some r =>
    match findSub (sliceR s r) sep with
    | some i =>
      let mid := r.start + i + sep.length
      (rFilter ⟨r.start, mid - 1⟩, rFilter ⟨mid, r.stop⟩)
    | none =>
      if (sliceR s r).isEmpty then (none, none) else (some r, none)

/-- `Authority` from `uri.rs`. -/
structure Authority where
  inner : List Nat
  username : Option RangeC
  password : Option RangeC
  host : RangeC
  port : Option RangeC
deriving Repr, DecidableEq

/-- `Authority::try_from` (`uri.rs` lines 497-534): split userinfo at the
first `@`, username/password at `:`; split host/port at `]:` when the
string has `[` and `]`, else at `:`; a missing host or an unparsable
port is `UriErr`. -/
def authorityTryFrom (s : List Nat) : Except ParseErr Authority :=
  let parts :=
    if containsSub s [64] then
      let ip := get_chunks s (some ⟨0, s.length⟩) [64]
      let up := get_chunks s ip.1 [58]
      (up.1, up.2, ip.2)
    else (none, none, some ⟨0, s.length⟩)
  let split_by := if containsSub s [91] ∧ containsSub s [93] then [93, 58] else [58]
  let hp := get_chunks s parts.2.2 split_by
  match hp.1 with
  | none => .error .uriErr
  | some host =>
    match hp.2 with
    | some p =>
      if (parseU16 (sliceR s p)).isNone then .error .uriErr
      else .ok ⟨s, parts.1, parts.2.1, host, some p⟩
    | none => .ok ⟨s, parts.1, parts.2.1, host, none⟩

/-- `Uri` from `uri.rs`. -/
structure Uri where
  inner : List Nat
  scheme : RangeC
  authority : Option Authority
  path : Option RangeC
  query : Option RangeC
  fragment : Option RangeC
deriving Repr, DecidableEq

/-- `Uri::resource` (`uri.rs` lines 240-245): the input suffix from the
path's start, or the literal `/` when the path is absent. -/
def Uri.resource (u : Uri) : List Nat :=
  match u.path with
  | some p => u.inner.drop p.start
  | none => [47]

/-- `Uri::try_from` (`uri.rs` lines 352-400): scheme at the first `:`
(`UriErr` if absent or empty); when the remainder contains `//`,
authority between `//` and the next `/`; the `/` is re-attached to the
path range when it immediately precedes it; then `?` and `#` splits. -/
def uriTryFrom (s : List Nat) : Except Error Uri :=
  let chunks0 := get_chunks s (some ⟨0, s.length⟩) [58]
  match chunks0.1 with
  | none => .error (.parse .uriErr)
  | some scheme =>
    let uriPart0 := chunks0.2
    let step : Except Error (Option Authority × Option RangeC) :=
      match uriPart0 with
      | some u =>
        if containsSub (sliceR s u) [47, 47] then
          let ap := get_chunks s (some ⟨u.start + 2, u.stop⟩) [47]
          match ap.1 with
          | some a =>
            match authorityTryFrom (sliceR s a) with
            | .error e => .error (.parse e)
            | .ok av => .ok (some av, ap.2)
          | none => .ok (none, ap.2)
        else .ok (none, uriPart0)
      | none => .ok (none, uriPart0)
    match step with
    | .error e => .error e
    | .ok (authority, uriPart1) =>
      let uriPart2 :=
        match uriPart1 with
        | some u =>
          if sliceR s ⟨u.start - 1, u.start⟩ = [47] then some (RangeC.mk (u.start - 1) u.stop)
          else some u
        | none => none
      let pqf :=
        match uriPart2 with
        | some u =>
          if containsSub (sliceR s u) [63] ∧ containsSub (sliceR s u) [35] then
            let pu := get_chunks s uriPart2 [63]
            let qf := get_chunks s pu.2 [35]
            (pu.1, qf.1, qf.2)
          else if containsSub (sliceR s u) [63] then
            let pq := get_chunks s uriPart2 [63]
            (pq.1, pq.2, none)
          else if containsSub (sliceR s u) [35] then
            let pf := get_chunks s uriPart2 [35]
            (pf.1, none, pf.2)
          else (uriPart2, none, none)
        | none => (uriPart2, none, none)
      .ok ⟨s, scheme, authority, pqf.1, pqf.2.1, pqf.2.2⟩

/-! ## Requests (`src/request.rs`) -/

/-- `Method` from `request.rs`. -/
inductive Method where
  | GET | HEAD | POST | PUT | DELETE | OPTIONS | PATCH
deriving Repr, DecidableEq

/-- `Display` for `Method` (ASCII bytes of the verb). -/
def Method.toBytes : Method → List Nat
  | .GET => [71, 69, 84]
  | .HEAD => [72, 69, 65, 68]
  | .POST => [80, 79, 83, 84]
  | .PUT => [80, 85, 84]
  | .DELETE => [68, 69, 76, 69, 84, 69]
  | .OPTIONS => [79, 80, 84, 73, 79, 78, 83]
  | .PATCH => [80, 65, 84, 67, 72]

/-- `HttpVersion` from `request.rs`. -/
inductive HttpVersion where
  | http10 | http11 | http20
deriving Repr, DecidableEq

/-- `HttpVersion::as_str` (ASCII bytes of `HTTP/1.0`, `HTTP/1.1`,
`HTTP/2.0`). -/
def HttpVersion.toBytes : HttpVersion → List Nat
  | .http10 => [72, 84, 84, 80, 47, 49, 46, 48]
  | .http11 => [72, 84, 84, 80, 47, 49, 46, 49]
  | .http20 => [72, 84, 84, 80, 47, 50, 46, 48]

/-- `RequestBuilder` from `request.rs`.  Modelled from the spec: the
request-side header collection (`Headers::default_http`, `insert`, and
iteration, used by `request.rs` but absent from this snapshot of
`response.rs`) is an ordered, insertion-preserving sequence of pairs
(spec section 4.2), serialized in iteration order. -/
structure ReqBuilder where
  uri : Uri
  method : Method
  version : HttpVersion
  headers : HeaderAList
  body : Option (List Nat)

/-- `RequestBuilder::parse_msg`: request line, then one `Name: Value`
line per header, a blank line, and the body verbatim. -/
def parse_msg (r : ReqBuilder) : List Nat :=
  let requestLine := r.method.toBytes ++ [32] ++ r.uri.resource ++ [32] ++ r.version.toBytes ++ crlfB
  let headerBytes := (r.headers.map (fun p => p.1 ++ [58, 32] ++ p.2 ++ crlfB)).flatten
  (requestLine ++ headerBytes ++ crlfB) ++ r.body.getD []

/-- The byte-at-a-time loop of `copy_until`: push bytes from the source
until the accumulated buffer ends with `val` (checked after each push)
or the source is exhausted.  Returns the buffer and the remaining
source. -/
def copyUntilStep (val : List Nat) : List Nat → List Nat → List Nat × List Nat
  | buf, [] => (buf, [])
  | buf, b :: rest =>
    let buf1 := buf ++ [b]
    if val.isSuffixOf buf1 then (buf1, rest)
    else copyUntilStep val buf1 rest

/-- `copy_until` (`request.rs` lines 31-55) over an in-memory stream: a
first read of up to 10 bytes, then byte-at-a-time accumulation until the
buffer ends with `val`; the buffer is then written to the writer.
Returns (bytes read, final writer, remaining stream input). -/
def copy_until (input : List Nat) (writer : List Nat) (val : List Nat) :
    Nat × List Nat × List Nat :=
  let r := copyUntilStep val (input.take 10) (input.drop 10)
  (r.1.length, writer ++ r.1, r.2)

/-- `RequestBuilder::read_head`: accumulate the head with `copy_until`
up to `\r\n\r\n`, then parse it.  Returns the parse outcome and the
remaining stream input. -/
def reqReadHead (input : List Nat) : RRes Error Resp × List Nat :=
  let r := copy_until input [] crlf2B
  (fromHead r.2.1, r.2.2)

/-- `RequestBuilder::send` (`request.rs` lines 402-415) over an
in-memory stream: write the request message, read and parse the head,
and only then (for methods other than HEAD) copy the remaining stream
bytes into the caller's writer.  Returns (result, bytes written to the
stream, final writer contents). -/
def reqSend (r : ReqBuilder) (input : List Nat) (writer : List Nat) :
    RRes Error Resp × List Nat × List Nat :=
  let msg := parse_msg r
  let head := reqReadHead input
  match head.1 with
  | .crash => (.crash, msg, writer)
  | .err e => (.err e, msg, writer)
  | .ok resp =>
    if r.method ≠ Method.HEAD then (.ok resp, msg, writer ++ head.2)
    else (.ok resp, msg, writer)

/-! ## The deadline loop (`src/stream.rs`) -/

/-- `execute_with_deadline` (`stream.rs` lines 246-266).  Time is a
natural number of ticks; `nows i` is the value `Instant::now()` returns
at the top of iteration `i` (iterations are counted from the entry
value of `i`).  `deadline - now` saturates at zero exactly as `Instant`
subtraction does.  `f` is a state-passing version of `func`; the third
result component counts how many times `f` was invoked, and the state
is threaded through.  Fuel-indexed since the Rust loop need not
terminate. -/
def executeWithDeadline {σ : Type} : Nat → Nat → (Nat → Nat) →
    (Nat → σ → σ × Except Error Bool) → σ → Nat → Option (Except Error Unit × σ × Nat)
  | 0, _, _, _, _, _ => none
  | fuel + 1, deadline, nows, f, st, i =>
    let now := nows i
    let _remaining := deadline - now
    if deadline < now then some (.error .timeout, st, i)
    else
      let r := f (deadline - now) st
      match r.2 with
      | .ok true => some (.ok (), r.1, i + 1)
      | .ok false => executeWithDeadline fuel deadline nows f r.1 (i + 1)
      | .error e => some (.error e, r.1, i + 1)


/-! ## Decoder positions in a well-formed chunk stream

Specification-side bookkeeping for the proof of the chunked round-trip:
a `ChunkPos` names where the decoder stands inside `encodeChunked cs`,
and `ChunkInv` ties it to a `ChunkRd` state. -/

/-- Position of the decoder inside a well-formed chunk stream. -/
inductive ChunkPos : Type where
  | header (cs : List (List Nat))
  | payload (p : List Nat) (cs : List (List Nat))
  | trailer (cs : List (List Nat))
  | done
deriving Repr

/-- Well-formed payload list: every chunk is nonempty (a zero size would
terminate the stream early) and its size fits in the decoder's 16-digit
hex cap. -/
def wfChunks (cs : List (List Nat)) : Prop := ∀ c ∈ cs, c ≠ [] ∧ c.length < 16 ^ 16

/-- Source bytes still to be consumed at a position. -/
def posRemaining : ChunkPos → List Nat
  | .header cs => encodeChunked cs
  | .payload p cs => p ++ crlfB ++ encodeChunked cs
  | .trailer cs => crlfB ++ encodeChunked cs
  | .done => []

/-- Decoded bytes still to be delivered at a position. -/
def posDecoded : ChunkPos → List Nat
  | .header cs => cs.flatten
  | .payload p cs => p ++ cs.flatten
  | .trailer cs => cs.flatten
  | .done => []

/-- Well-formedness of the position payload data. -/
def posWf : ChunkPos → Prop
  | .header cs => wfChunks cs
  | .payload p cs => p ≠ [] ∧ wfChunks cs
  | .trailer cs => wfChunks cs
  | .done => True

/-- The decoder state corresponding to a position: no latched error, the
reader holds exactly the remaining source bytes, and the flags and the
pending counter are those of the position. -/
def ChunkInv (s : ChunkRd) (pos : ChunkPos) : Prop :=
  s.err = none ∧ s.reader.concat = posRemaining pos ∧ posWf pos ∧
  (match pos with
   | .header _ => s.check_end = false ∧ s.eof = false ∧ s.n = 0
   | .payload p _ => s.check_end = false ∧ s.eof = false ∧ s.n = p.length
   | .trailer _ => s.check_end = true ∧ s.eof = false ∧ s.n = 0
   | .done => s.eof = true)

/-- What one `read` call delivers from an invariant state: the loop
result extends the output by a prefix `δ` of the remaining decoded
bytes, re-establishes the invariant, consumes at least as many source
bytes as it delivers, delivers something whenever it stops short of
EOF, and never overfills the caller's buffer. -/
def callSpec (res : Option (ChunkRd × Nat × List Nat)) (pos : ChunkPos)
    (consumed : Nat) (out : List Nat) (bufLen : Nat) : Prop :=
  ∃ s1 pos1 δ, res = some (s1, consumed + δ.length, out ++ δ) ∧
    ChunkInv s1 pos1 ∧
    posDecoded pos = δ ++ posDecoded pos1 ∧
    (posRemaining pos1).length + δ.length ≤ (posRemaining pos).length ∧
    (s1.eof = false → 0 < consumed + δ.length) ∧
    consumed + δ.length ≤ bufLen

/-! ## List helper lemmas -/

lemma take_drop_glue {α : Type} (l : List α) (m j : Nat) (h : j ≤ m) :
    (l.take m).drop j ++ l.drop m = l.drop j := by
  have h2 : l.drop m = (l.drop j).drop (m - j) := by
    rw [List.drop_drop]
    congr 1
    omega
  rw [List.drop_take, h2]
  exact List.take_append_drop _ _

lemma findIdx_first_aux {α : Type} (p : α → Bool) (d : α) (t : List α) (hd : p d = true) :
    ∀ (a : List α) (i : Nat), (∀ x ∈ a, p x = false) →
      List.findIdx? p (a ++ d :: t) i = some (i + a.length) := by
  intro a
  induction a with
  | nil => intro i _; simp [List.findIdx?_cons, hd]
  | cons x xs ih =>
    intro i ha
    have hx : p x = false := ha x (by simp)
    have ih2 := ih (i + 1) (fun y hy => ha y (by simp [hy]))
    simp only [List.cons_append, List.findIdx?_cons, hx, Bool.false_eq_true, if_false, ih2,
      List.length_cons]
    congr 1
    omega

lemma findIdx_first {α : Type} (p : α → Bool) (a t : List α) (d : α)
    (ha : ∀ x ∈ a, p x = false) (hd : p d = true) :
    (a ++ d :: t).findIdx? p = some a.length := by
  have := findIdx_first_aux p d t hd a 0 ha
  simpa using this

/-! ## `BufRd` operation specifications

Everything the chunked decoder delivers is a function of the
concatenation `buf ++ inner` of the reader's buffered and unproduced
bytes; these lemmas describe each operation in terms of it. -/

lemma BufRd.concat_mk (x y : List Nat) : BufRd.concat ⟨x, y⟩ = x ++ y := rfl

lemma BufRd.fillBuf_spec (b : BufRd) :
    ∃ m, 1 ≤ m ∧ (b.fillBuf).1 = b.concat.take m ∧
      (b.fillBuf).2.buf = (b.fillBuf).1 ∧
      (b.fillBuf).2.inner = b.concat.drop ((b.fillBuf).1.length) := by
  by_cases hb : b.buf = []
  · have hsimp : b.fillBuf = (b.inner.take bufCap,
        ⟨b.inner.take bufCap, b.inner.drop bufCap⟩) := by
      simp [BufRd.fillBuf, hb]
    rw [hsimp]
    have hcc : b.concat = b.inner := by simp [BufRd.concat, hb]
    refine ⟨bufCap, by norm_num [bufCap], by rw [hcc], rfl, ?_⟩
    rw [hcc]
    simp only [List.length_take]
    rcases le_or_lt bufCap b.inner.length with hc | hc
    · rw [min_eq_left hc]
    · rw [min_eq_right (le_of_lt hc), List.drop_length,
        List.drop_eq_nil_of_le (le_of_lt hc)]
  · have hsimp : b.fillBuf = (b.buf, b) := by
      simp [BufRd.fillBuf, List.isEmpty_iff, hb]
    rw [hsimp]
    refine ⟨b.buf.length, ?_, ?_, rfl, ?_⟩
    · have := List.length_pos.mpr hb; omega
    · rw [BufRd.concat, List.take_append_of_le_length le_rfl, List.take_length]
    · rw [BufRd.concat, List.drop_append_of_le_length le_rfl, List.drop_length,
        List.nil_append]

lemma BufRd.avail_take_length (b : BufRd) :
    b.concat.take ((b.fillBuf).1.length) = (b.fillBuf).1 := by
  obtain ⟨mf, _, havail, _, _⟩ := BufRd.fillBuf_spec b
  have hlen : (b.fillBuf).1.length = min mf b.concat.length := by
    rw [havail, List.length_take]
  conv_rhs => rw [← List.take_length ((b.fillBuf).1)]
  rw [havail, List.take_take, List.take_eq_take]
  simp only [List.length_take]
  omega

lemma BufRd.read_spec (b : BufRd) (k : Nat) :
    ∃ m, m ≤ k ∧ (b.read k).1 = b.concat.take m ∧
      (b.read k).2.concat = b.concat.drop m ∧
      (1 ≤ k → b.concat ≠ [] → 1 ≤ m) := by
  by_cases h : b.buf.isEmpty = true ∧ bufCap ≤ k
  · have hb : b.buf = [] := List.isEmpty_iff.mp h.1
    have hsimp : b.read k = (b.inner.take k, ⟨[], b.inner.drop k⟩) := by
      rw [BufRd.read, if_pos h]
    have hcc : b.concat = b.inner := by simp [BufRd.concat, hb]
    rw [hsimp, hcc]
    refine ⟨min k b.inner.length, by omega, ?_, ?_, ?_⟩
    · rw [List.take_eq_take]; omega
    · simp only [BufRd.concat, List.nil_append]
      rcases le_or_lt k b.inner.length with hk | hk
      · rw [min_eq_left hk]
      · rw [List.drop_eq_nil_of_le (by omega), List.drop_eq_nil_of_le (by omega)]
    · intro h1 hne
      have : 0 < b.inner.length := List.length_pos.mpr hne
      omega
  · have hsimp : b.read k = (((b.fillBuf).1).take k,
        ((b.fillBuf).2).consume (((b.fillBuf).1).take k).length) := by
      rw [BufRd.read, if_neg h]
    obtain ⟨mf, hmf1, havail, hbuf2, hinner2⟩ := BufRd.fillBuf_spec b
    have haveq := BufRd.avail_take_length b
    set avail := (b.fillBuf).1 with hav
    have hlen : avail.length = min mf b.concat.length := by
      rw [havail, List.length_take]
    rw [hsimp]
    refine ⟨min k avail.length, by omega, ?_, ?_, ?_⟩
    · show avail.take k = _
      conv_lhs => rw [← haveq]
      rw [List.take_take]
    · show (((b.fillBuf).2).consume ((avail.take k).length)).concat = _
      simp only [BufRd.consume, hbuf2, hinner2, ← hav, BufRd.concat_mk, List.length_take]
      calc avail.drop (min k avail.length) ++ b.concat.drop avail.length
          = (b.concat.take avail.length).drop (min k avail.length) ++
              b.concat.drop avail.length := by rw [haveq]
        _ = b.concat.drop (min k avail.length) := take_drop_glue _ _ _ (by omega)
    · intro hk hne
      have h1 : 0 < b.concat.length := List.length_pos.mpr hne
      omega

lemma BufRd.readExactAux_spec :
    ∀ (fuel k : Nat) (b : BufRd), k ≤ fuel → k ≤ b.concat.length →
      (BufRd.readExactAux fuel b k).1 = some (b.concat.take k) ∧
        (BufRd.readExactAux fuel b k).2.concat = b.concat.drop k := by
  intro fuel
  induction fuel with
  | zero =>
    intro k b hk _
    have : k = 0 := by omega
    subst this
    simp [BufRd.readExactAux]
  | succ fuel ih =>
    intro k b hkf h
    by_cases hk : k = 0
    · subst hk
      simp [BufRd.readExactAux]
    · unfold BufRd.readExactAux
      rw [if_neg hk]
      obtain ⟨m, hmk, hout, hdrop, hpos⟩ := BufRd.read_spec b k
      have hne : b.concat ≠ [] := by
        intro hc
        rw [hc] at h
        simp at h
        omega
      have hm1 : 1 ≤ m := hpos (by omega) hne
      have hmlen : m ≤ b.concat.length := by omega
      have hlenout : (b.read k).1.length = m := by
        rw [hout, List.length_take]; omega
      simp only [hlenout]
      rw [if_neg (by omega : ¬ m = 0)]
      have hrec := ih (k - m) (b.read k).2 (by omega)
        (by rw [hdrop, List.length_drop]; omega)
      rw [hdrop] at hrec
      constructor
      · show (BufRd.readExactAux fuel (b.read k).2 (k - m)).1.map ((b.read k).1 ++ ·) = _
        rw [hrec.1]
        simp only [Option.map_some']
        congr 1
        have hksum : k = m + (k - m) := by omega
        conv_rhs => rw [hksum]
        rw [List.take_add, hout]
      · show (BufRd.readExactAux fuel (b.read k).2 (k - m)).2.concat = _
        rw [hrec.2, List.drop_drop]
        congr 1
        omega

lemma BufRd.readExact_spec (b : BufRd) (k : Nat) (h : k ≤ b.concat.length) :
    (b.readExact k).1 = some (b.concat.take k) ∧
      (b.readExact k).2.concat = b.concat.drop k :=
  BufRd.readExactAux_spec k k b le_rfl h

lemma BufRd.readUntilAux_spec (d : Nat) (n : Nat) :
    ∀ (a rest : List Nat) (fuel : Nat) (b : BufRd),
      a.length < n → b.concat = a ++ d :: rest → (∀ x ∈ a, x ≠ d) →
      a.length + 1 ≤ fuel →
      (BufRd.readUntilAux d fuel b).1 = a ++ [d] ∧
        (BufRd.readUntilAux d fuel b).2.concat = rest := by
  induction n with
  | zero => intro a rest fuel b hn; omega
  | succ n ih =>
    intro a rest fuel b hn hc ha hfuel
    obtain ⟨f, rfl⟩ : ∃ f, fuel = f + 1 := ⟨fuel - 1, by omega⟩
    obtain ⟨mf, hmf1, havail, hbuf2, hinner2⟩ := BufRd.fillBuf_spec b
    have haveq := BufRd.avail_take_length b
    obtain ⟨avail, b2, hfb⟩ : ∃ av b2, b.fillBuf = (av, b2) := ⟨_, _, rfl⟩
    rw [hfb] at havail hbuf2 hinner2 haveq
    simp only at havail hbuf2 hinner2 haveq
    have hlen : avail.length = min mf b.concat.length := by
      rw [havail, List.length_take]
    have hcne : b.concat ≠ [] := by rw [hc]; simp
    have hclen : 0 < b.concat.length := List.length_pos.mpr hcne
    have havne : avail ≠ [] := by
      intro hz
      have : avail.length = 0 := by rw [hz]; rfl
      omega
    have havne2 : avail.isEmpty = false := by
      rw [Bool.eq_false_iff]
      intro hx
      exact havne (List.isEmpty_iff.mp hx)
    rcases le_or_lt avail.length a.length with hle | hgt
    · -- the fill stopped inside `a`: consume it all and recurse
      have havsub : avail = a.take avail.length := by
        have h1 := haveq
        rw [hc, List.take_append_of_le_length hle] at h1
        exact h1.symm
      have hfind : avail.findIdx? (fun c => c == d) = none := by
        rw [List.findIdx?_eq_none_iff]
        intro x hx
        rw [havsub] at hx
        simpa using ha x (List.mem_of_mem_take hx)
      have hconsume : (b2.consume avail.length).concat =
          a.drop avail.length ++ d :: rest := by
        simp only [BufRd.consume, hbuf2, hinner2, BufRd.concat_mk]
        rw [List.drop_length, List.nil_append, hc, List.drop_append_of_le_length hle]
      have havpos : 0 < avail.length := List.length_pos.mpr havne
      have ha' : ∀ x ∈ a.drop avail.length, x ≠ d :=
        fun x hx => ha x (List.mem_of_mem_drop hx)
      have hlen' : (a.drop avail.length).length < n := by
        rw [List.length_drop]; omega
      have hfuel' : (a.drop avail.length).length + 1 ≤ f := by
        rw [List.length_drop]; omega
      have ihres := ih (a.drop avail.length) rest f (b2.consume avail.length)
        hlen' hconsume ha' hfuel'
      have hunf : BufRd.readUntilAux d (f + 1) b =
          (avail ++ (BufRd.readUntilAux d f (b2.consume avail.length)).1,
            (BufRd.readUntilAux d f (b2.consume avail.length)).2) := by
        conv_lhs => rw [BufRd.readUntilAux]
        simp only [hfb, havne2, Bool.false_eq_true, if_false, hfind]
      rw [hunf]
      refine ⟨?_, ihres.2⟩
      show avail ++ _ = _
      rw [ihres.1]
      nth_rewrite 1 [havsub]
      rw [← List.append_assoc, List.take_append_drop]
    · -- the delimiter is inside the filled buffer
      have havshape : avail = a ++ d :: rest.take (avail.length - a.length - 1) := by
        have h1 := haveq
        rw [hc] at h1
        have h2 : avail.length = a.length + (avail.length - a.length) := by omega
        rw [h2, List.take_append] at h1
        have h3 : avail.length - a.length = (avail.length - a.length - 1) + 1 := by omega
        rw [h3, List.take_succ_cons] at h1
        exact h1.symm
      have hfind : avail.findIdx? (fun c => c == d) = some a.length := by
        rw [havshape]
        apply findIdx_first
        · intro x hx; simpa using ha x hx
        · simp
      have hunf : BufRd.readUntilAux d (f + 1) b =
          (avail.take (a.length + 1), b2.consume (a.length + 1)) := by
        conv_lhs => rw [BufRd.readUntilAux]
        simp only [hfb, havne2, Bool.false_eq_true, if_false, hfind]
      rw [hunf]
      constructor
      · rw [havshape, show a.length + 1 = a.length + 1 from rfl, List.take_append,
          List.take_succ_cons, List.take_zero]
      · simp only [BufRd.consume, hbuf2, hinner2, BufRd.concat_mk]
        calc avail.drop (a.length + 1) ++ b.concat.drop avail.length
            = (b.concat.take avail.length).drop (a.length + 1) ++
                b.concat.drop avail.length := by rw [haveq]
          _ = b.concat.drop (a.length + 1) := take_drop_glue _ _ _ (by omega)
          _ = rest := by
              rw [hc, show a.length + 1 = a.length + 1 from rfl, List.drop_append,
                List.drop_succ_cons, List.drop_zero]

lemma BufRd.readUntil_spec (d : Nat) (b : BufRd) (a rest : List Nat)
    (hc : b.concat = a ++ d :: rest) (ha : ∀ x ∈ a, x ≠ d) :
    (b.readUntil d).1 = a ++ [d] ∧ (b.readUntil d).2.concat = rest := by
  have hfuel : a.length + 1 ≤ b.concat.length + 1 := by
    rw [hc]
    simp only [List.length_append, List.length_cons]
    omega
  have hres := BufRd.readUntilAux_spec d (a.length + 1) a rest (b.concat.length + 1) b
    (by omega) hc ha hfuel
  unfold BufRd.readUntil
  exact hres

/-! ## Chunk-line lemmas -/

lemma read_chunk_line_spec (b : BufRd) (a rest : List Nat)
    (hc : b.concat = a ++ 10 :: rest) (ha : ∀ x ∈ a, x ≠ 10)
    (hlen : a.length + 1 ≤ maxLineLength) :
    (read_chunk_line b).1 =
      .ok (remove_chunk_extension (trim_trailing_whitespace (a ++ [10]))) ∧
    (read_chunk_line b).2.concat = rest := by
  obtain ⟨hline, hrest⟩ := BufRd.readUntil_spec 10 b a rest hc ha
  simp only [read_chunk_line]
  rw [hline]
  rw [if_neg (by
    simp only [List.length_append, List.length_cons, List.length_nil]
    omega)]
  exact ⟨rfl, hrest⟩


/-! ## Hexadecimal round-trip lemmas -/

lemma hexChar_range (x : Nat) (hx : x < 16) :
    (48 ≤ hexChar x ∧ hexChar x ≤ 57) ∨ (97 ≤ hexChar x ∧ hexChar x ≤ 102) := by
  unfold hexChar
  split <;> omega

lemma hexDigitVal_hexChar (x : Nat) (hx : x < 16) : hexDigitVal (hexChar x) = some x := by
  unfold hexChar hexDigitVal
  split
  · rw [if_pos (by omega)]
    congr 1
    omega
  · rw [if_neg (by omega), if_pos (by omega)]
    congr 1
    omega

lemma hexBytesAux_mem : ∀ (fuel n : Nat) (d : Nat), d ∈ hexBytesAux fuel n →
    (48 ≤ d ∧ d ≤ 57) ∨ (97 ≤ d ∧ d ≤ 102) := by
  intro fuel
  induction fuel with
  | zero => intro n d hd; simp [hexBytesAux] at hd
  | succ fuel ih =>
    intro n d hd
    unfold hexBytesAux at hd
    by_cases hn : n < 16
    · rw [if_pos hn] at hd
      rw [List.mem_singleton] at hd
      subst hd
      exact hexChar_range n hn
    · rw [if_neg hn] at hd
      rcases List.mem_append.mp hd with h | h
      · exact ih _ d h
      · rw [List.mem_singleton] at h
        subst h
        exact hexChar_range _ (Nat.mod_lt n (by omega))

lemma hexBytes_mem (n : Nat) (d : Nat) (hd : d ∈ hexBytes n) :
    (48 ≤ d ∧ d ≤ 57) ∨ (97 ≤ d ∧ d ≤ 102) := hexBytesAux_mem _ n d hd

lemma hexBytesAux_length : ∀ (fuel n k : Nat), n < 16 ^ k → 1 ≤ k →
    (hexBytesAux fuel n).length ≤ k := by
  intro fuel
  induction fuel with
  | zero => intro n k _ _; simp [hexBytesAux]
  | succ fuel ih =>
    intro n k hn hk
    unfold hexBytesAux
    by_cases h : n < 16
    · rw [if_pos h]
      simpa using hk
    · rw [if_neg h]
      have hk2 : 2 ≤ k := by
        by_contra hc
        have hk1 : k = 1 := by omega
        subst hk1
        rw [pow_one] at hn
        omega
      have h16 : (16 : Nat) ^ k = 16 * 16 ^ (k - 1) := by
        conv_lhs => rw [show k = 1 + (k - 1) by omega]
        rw [pow_add, pow_one]
      have hdiv : n / 16 < 16 ^ (k - 1) := by
        rw [Nat.div_lt_iff_lt_mul (by norm_num)]
        omega
      have := ih (n / 16) (k - 1) hdiv (by omega)
      simp only [List.length_append, List.length_cons, List.length_nil]
      omega

lemma hexBytes_length (n k : Nat) (hn : n < 16 ^ k) (hk : 1 ≤ k) :
    (hexBytes n).length ≤ k := hexBytesAux_length _ n k hn hk

lemma parseHexLoop_ok : ∀ (ds : List Nat) (i acc : Nat),
    i + ds.length ≤ 16 → (∀ d ∈ ds, (hexDigitVal d).isSome) →
    parseHexLoop ds i acc =
      .ok (ds.foldl (fun a d => a * 16 + (hexDigitVal d).getD 0) acc) := by
  intro ds
  induction ds with
  | nil => intro i acc _ _; rfl
  | cons d ds ih =>
    intro i acc hle hall
    unfold parseHexLoop
    rw [if_neg (show ¬ i = 16 by simp only [List.length_cons] at hle; omega)]
    obtain ⟨v, hv⟩ := Option.isSome_iff_exists.mp (hall d (List.mem_cons_self d ds))
    rw [hv]
    simp only []
    rw [ih (i + 1) (acc * 16 + v) (by simp only [List.length_cons] at hle; omega)
      (fun x hx => hall x (List.mem_cons_of_mem d hx))]
    rw [List.foldl_cons, hv]
    rfl

lemma hexBytesAux_foldl : ∀ (fuel n acc : Nat), n < 16 ^ fuel →
    (hexBytesAux fuel n).foldl (fun a d => a * 16 + (hexDigitVal d).getD 0) acc
      = acc * 16 ^ (hexBytesAux fuel n).length + n := by
  intro fuel
  induction fuel with
  | zero =>
    intro n acc hn
    have hz : n = 0 := by simpa using hn
    subst hz
    simp [hexBytesAux]
  | succ fuel ih =>
    intro n acc hn
    unfold hexBytesAux
    by_cases h : n < 16
    · rw [if_pos h]
      simp only [List.foldl_cons, List.foldl_nil, List.length_cons, List.length_nil,
        hexDigitVal_hexChar n h, Option.getD_some, pow_one]
      norm_num
    · rw [if_neg h]
      have hdiv : n / 16 < 16 ^ fuel := by
        rw [Nat.div_lt_iff_lt_mul (by norm_num)]
        have hp : (16 : Nat) ^ (fuel + 1) = 16 ^ fuel * 16 := pow_succ 16 fuel
        omega
      rw [List.foldl_append, ih (n / 16) acc hdiv]
      simp only [List.foldl_cons, List.foldl_nil, List.length_append, List.length_cons,
        List.length_nil, hexDigitVal_hexChar (n % 16) (Nat.mod_lt n (by omega)),
        Option.getD_some]
      have hdm : 16 * (n / 16) + n % 16 = n := Nat.div_add_mod n 16
      calc (acc * 16 ^ (hexBytesAux fuel (n / 16)).length + n / 16) * 16 + n % 16
          = acc * (16 ^ (hexBytesAux fuel (n / 16)).length * 16) +
              (16 * (n / 16) + n % 16) := by ring
        _ = acc * 16 ^ ((hexBytesAux fuel (n / 16)).length + (0 + 1)) + n := by
              rw [← pow_succ, hdm]

lemma hexBytes_foldl (n : Nat) :
    (hexBytes n).foldl (fun a d => a * 16 + (hexDigitVal d).getD 0) 0 = n := by
  have hlt : n < 16 ^ (n + 1) :=
    lt_of_lt_of_le (Nat.lt_pow_self (by omega) n)
      (Nat.pow_le_pow_right (by omega) (by omega))
  have h := hexBytesAux_foldl (n + 1) n 0 hlt
  rw [Nat.zero_mul, Nat.zero_add] at h
  unfold hexBytes
  exact h

lemma parse_hexBytes (n : Nat) (hn : n < 16 ^ 16) : parse_hex_uint (hexBytes n) = .ok n := by
  have hlen : (hexBytes n).length ≤ 16 := hexBytes_length n 16 hn (by omega)
  have hall : ∀ d ∈ hexBytes n, (hexDigitVal d).isSome := by
    intro d hd
    rcases hexBytes_mem n d hd with h | h
    · simp only [hexDigitVal]
      rw [if_pos (by omega)]
      rfl
    · simp only [hexDigitVal]
      rw [if_neg (by omega), if_pos (by omega)]
      rfl
  unfold parse_hex_uint
  rw [parseHexLoop_ok _ 0 0 (by omega) hall, hexBytes_foldl]

/-! ## Whitespace and extension lemmas -/

lemma dropWhile_all_neg {α : Type} (p : α → Bool) :
    ∀ (l : List α), (∀ x ∈ l, p x = false) → l.dropWhile p = l := by
  intro l
  induction l with
  | nil => intro _; rfl
  | cons x xs _ =>
    intro h
    rw [List.dropWhile_cons, if_neg (by rw [h x (List.mem_cons_self x xs)]; simp)]

lemma takeWhile_all_pos {α : Type} (p : α → Bool) :
    ∀ (l : List α), (∀ x ∈ l, p x = true) → l.takeWhile p = l := by
  intro l
  induction l with
  | nil => intro _; rfl
  | cons x xs ih =>
    intro h
    rw [List.takeWhile_cons, if_pos (h x (List.mem_cons_self x xs)),
      ih (fun y hy => h y (List.mem_cons_of_mem x hy))]

lemma is_ascii_space_false (b : Nat) (hb : 48 ≤ b) : is_ascii_space b = false := by
  unfold is_ascii_space
  split <;> first | rfl | omega

lemma trim_line (l : List Nat) (hl : ∀ x ∈ l, 48 ≤ x) :
    trim_trailing_whitespace (l ++ [13, 10]) = l := by
  unfold trim_trailing_whitespace
  rw [List.reverse_append]
  rw [show ([13, 10] : List Nat).reverse ++ l.reverse = 10 :: 13 :: l.reverse from rfl]
  rw [List.dropWhile_cons, if_pos (by decide : is_ascii_space 10 = true)]
  rw [List.dropWhile_cons, if_pos (by decide : is_ascii_space 13 = true)]
  rw [dropWhile_all_neg _ _
    (fun x hx => is_ascii_space_false x (hl x (List.mem_reverse.mp hx)))]
  exact List.reverse_reverse l

lemma ext_noop (l : List Nat) (hl : ∀ x ∈ l, x ≠ 59) :
    remove_chunk_extension l = l := by
  unfold remove_chunk_extension
  apply takeWhile_all_pos
  intro x hx
  simpa using hl x hx

/-! ## Chunk-size-line and `begin_chunk` lemmas -/

lemma size_line_ok (b : BufRd) (n : Nat) (rest : List Nat)
    (hn : n < 16 ^ 16)
    (hc : b.concat = hexBytes n ++ 13 :: 10 :: rest) :
    (read_chunk_line b).1 = .ok (hexBytes n) ∧ (read_chunk_line b).2.concat = rest := by
  have hc2 : b.concat = (hexBytes n ++ [13]) ++ 10 :: rest := by
    rw [hc, List.append_assoc]
    rfl
  have ha : ∀ x ∈ hexBytes n ++ [13], x ≠ 10 := by
    intro x hx
    rcases List.mem_append.mp hx with h | h
    · rcases hexBytes_mem n x h with h2 | h2 <;> omega
    · rw [List.mem_singleton] at h
      omega
  have hlen : (hexBytes n ++ [13]).length + 1 ≤ maxLineLength := by
    have := hexBytes_length n 16 hn (by omega)
    simp only [List.length_append, List.length_cons, List.length_nil, maxLineLength]
    omega
  obtain ⟨h1, h2⟩ := read_chunk_line_spec b (hexBytes n ++ [13]) rest hc2 ha hlen
  refine ⟨?_, h2⟩
  rw [h1]
  congr 1
  have htrim : trim_trailing_whitespace ((hexBytes n ++ [13]) ++ [10]) = hexBytes n := by
    rw [List.append_assoc, show ([13] : List Nat) ++ [10] = [13, 10] from rfl]
    exact trim_line _ (fun x hx => by rcases hexBytes_mem n x hx with h | h <;> omega)
  rw [htrim]
  exact ext_noop _ (fun x hx => by rcases hexBytes_mem n x hx with h | h <;> omega)

lemma encodeChunked_cons (c : List Nat) (cs : List (List Nat)) :
    encodeChunked (c :: cs) =
      hexBytes c.length ++ 13 :: 10 :: (c ++ 13 :: 10 :: encodeChunked cs) := by
  simp [encodeChunked, crlfB]

lemma encodeChunked_length_ge (cs : List (List Nat)) : 3 ≤ (encodeChunked cs).length := by
  unfold encodeChunked
  simp [crlfB]

lemma flatten_le_encode (cs : List (List Nat)) :
    cs.flatten.length ≤ (encodeChunked cs).length := by
  induction cs with
  | nil => simp [encodeChunked]
  | cons c cs ih =>
    rw [encodeChunked_cons]
    simp only [List.flatten_cons, List.length_append, List.length_cons]
    omega

lemma beginChunk_nil (s : ChunkRd) (hc : s.reader.concat = encodeChunked []) :
    s.beginChunk = { s with n := 0, eof := true, reader := (read_chunk_line s.reader).2 } ∧
      (read_chunk_line s.reader).2.concat = [] := by
  have hline := size_line_ok s.reader 0 [] (by norm_num) (by rw [hc]; rfl)
  unfold ChunkRd.beginChunk
  rw [hline.1]
  simp only []
  rw [show parse_hex_uint (hexBytes 0) = Except.ok 0 from rfl]
  simp only []
  exact ⟨rfl, hline.2⟩

lemma beginChunk_cons (s : ChunkRd) (c : List Nat) (cs : List (List Nat))
    (hne : c ≠ []) (hlen : c.length < 16 ^ 16)
    (hc : s.reader.concat = encodeChunked (c :: cs)) :
    s.beginChunk =
      { s with n := c.length, eof := false, reader := (read_chunk_line s.reader).2 } ∧
      (read_chunk_line s.reader).2.concat = c ++ 13 :: 10 :: encodeChunked cs := by
  have hc2 : s.reader.concat =
      hexBytes c.length ++ 13 :: 10 :: (c ++ 13 :: 10 :: encodeChunked cs) := by
    rw [hc, encodeChunked_cons]
  have hline := size_line_ok s.reader c.length _ hlen hc2
  unfold ChunkRd.beginChunk
  rw [hline.1]
  simp only []
  rw [parse_hexBytes c.length hlen]
  simp only []
  have hd : decide (c.length = 0) = false := by
    simp [List.length_eq_zero, hne]
  rw [hd]
  exact ⟨rfl, hline.2⟩


/-! ## The chunked-decoder invariant: one `read` call -/

lemma hexBytes_length_pos (n : Nat) : 1 ≤ (hexBytes n).length := by
  unfold hexBytes hexBytesAux
  split <;> simp

lemma encodeChunked_cons_length (c : List Nat) (cs : List (List Nat)) :
    (encodeChunked (c :: cs)).length =
      (hexBytes c.length).length + c.length + (encodeChunked cs).length + 4 := by
  rw [encodeChunked_cons]
  simp only [List.length_append, List.length_cons]
  omega

/-- The part of a loop iteration handling `self.n == 0` (chunk-header
reading), shared between the `header` state and the `trailer` state
falling through after consuming the chunk footer. -/
lemma headerPart_spec (f : Nat)
    (ih : ∀ (s : ChunkRd) (pos : ChunkPos) (bufLen consumed : Nat) (out : List Nat),
      ChunkInv s pos → 1 ≤ bufLen → consumed ≤ bufLen →
      (posRemaining pos).length + 2 ≤ f →
      callSpec (chunkReadLoop f s bufLen consumed out) pos consumed out bufLen)
    (s1 : ChunkRd) (cs : List (List Nat)) (bufLen consumed : Nat) (out : List Nat)
    (hInv : ChunkInv s1 (.header cs)) (hbuf : 1 ≤ bufLen) (hcons : consumed ≤ bufLen)
    (hfuel : (encodeChunked cs).length + 1 ≤ f) :
    callSpec
      (if consumed > 0 ∧ ¬ s1.headerAvailable = true then some (s1, consumed, out)
       else chunkReadLoop f s1.beginChunk bufLen consumed out)
      (.header cs) consumed out bufLen := by
  obtain ⟨herr, hconcat, hwfh, hce, heof, hn⟩ := hInv
  by_cases hbrk : consumed > 0 ∧ ¬ s1.headerAvailable = true
  · rw [if_pos hbrk]
    obtain ⟨hb1, -⟩ := hbrk
    exact ⟨s1, .header cs, [], by simp, ⟨herr, hconcat, hwfh, hce, heof, hn⟩,
      by simp, by simp, fun _ => by simpa using hb1, by simpa using hcons⟩
  · rw [if_neg hbrk]
    cases cs with
    | nil =>
      obtain ⟨hbc, hbcc⟩ := beginChunk_nil s1 hconcat
      have hInv2 : ChunkInv s1.beginChunk .done := by
        rw [hbc]
        exact ⟨herr, hbcc, trivial, rfl⟩
      have h3 : (encodeChunked ([] : List (List Nat))).length = 3 := rfl
      have hf2 : (posRemaining .done).length + 2 ≤ f := by
        simp only [posRemaining, List.length_nil]
        omega
      obtain ⟨s2, pos2, δ, hres, hInv3, hdec, hrem, hprog, hle⟩ :=
        ih s1.beginChunk .done bufLen consumed out hInv2 hbuf hcons hf2
      refine ⟨s2, pos2, δ, hres, hInv3, ?_, ?_, hprog, hle⟩
      · simpa [posDecoded] using hdec
      · simp only [posRemaining, List.length_nil] at hrem ⊢
        omega
    | cons c rest =>
      have hcwf : c ≠ [] ∧ c.length < 16 ^ 16 := hwfh c (List.mem_cons_self c rest)
      obtain ⟨hbc, hbcc⟩ := beginChunk_cons s1 c rest hcwf.1 hcwf.2 hconcat
      have hInv2 : ChunkInv s1.beginChunk (.payload c rest) := by
        rw [hbc]
        refine ⟨herr, ?_, ⟨hcwf.1, fun x hx => hwfh x (List.mem_cons_of_mem c hx)⟩,
          hce, rfl, rfl⟩
        show (read_chunk_line s1.reader).2.concat = posRemaining (.payload c rest)
        rw [hbcc]
        simp [posRemaining, crlfB, List.append_assoc]
      have hlenpos := hexBytes_length_pos c.length
      have hlc := encodeChunked_cons_length c rest
      have hf2 : (posRemaining (.payload c rest)).length + 2 ≤ f := by
        simp only [posRemaining, crlfB, List.length_append, List.length_cons,
          List.length_nil]
        omega
      obtain ⟨s2, pos2, δ, hres, hInv3, hdec, hrem, hprog, hle⟩ :=
        ih s1.beginChunk (.payload c rest) bufLen consumed out hInv2 hbuf hcons hf2
      refine ⟨s2, pos2, δ, hres, hInv3, ?_, ?_, hprog, hle⟩
      · simp only [posDecoded, List.flatten_cons] at hdec ⊢
        exact hdec
      · simp only [posRemaining, crlfB, List.length_append, List.length_cons,
          List.length_nil] at hrem ⊢
        omega


/-- Extending a call specification for a later position by the bytes
delivered on the way there. -/
lemma callSpec_extend {res : Option (ChunkRd × Nat × List Nat)} {pos : ChunkPos}
    (pos1 : ChunkPos) {consumed : Nat} {out : List Nat} {bufLen : Nat} (bytes : List Nat)
    (h : callSpec res pos1 (consumed + bytes.length) (out ++ bytes) bufLen)
    (hdec : posDecoded pos = bytes ++ posDecoded pos1)
    (hrem : (posRemaining pos1).length + bytes.length ≤ (posRemaining pos).length)
    (hprog0 : 1 ≤ bytes.length) :
    callSpec res pos consumed out bufLen := by
  obtain ⟨s1, p2, δ, hres, hInv, hdec2, hrem2, hprog, hle⟩ := h
  refine ⟨s1, p2, bytes ++ δ, ?_, hInv, ?_, ?_, ?_, ?_⟩
  · rw [hres]
    simp [List.length_append, List.append_assoc, Nat.add_assoc]
  · rw [hdec, hdec2, List.append_assoc]
  · simp only [List.length_append] at hrem2 ⊢
    omega
  · intro hf
    simp only [List.length_append]
    omega
  · simp only [List.length_append] at hle ⊢
    omega

/-- One call of the `ChunkReader::read` loop from an invariant state
satisfies its specification. -/
lemma chunkReadLoop_call : ∀ (fuel : Nat) (s : ChunkRd) (pos : ChunkPos)
    (bufLen consumed : Nat) (out : List Nat),
    ChunkInv s pos → 1 ≤ bufLen → consumed ≤ bufLen →
    (posRemaining pos).length + 2 ≤ fuel →
    callSpec (chunkReadLoop fuel s bufLen consumed out) pos consumed out bufLen := by
  intro fuel
  induction fuel with
  | zero =>
    intro s pos bufLen consumed out _ _ _ hfuel
    exact absurd hfuel (by omega)
  | succ f ih =>
    intro s pos bufLen consumed out hInv hbuf hcons hfuel
    cases pos with
    | done =>
      obtain ⟨herr, hconcat, -, heof⟩ := hInv
      have hres : chunkReadLoop (f + 1) s bufLen consumed out = some (s, consumed, out) := by
        unfold chunkReadLoop
        rw [if_pos (Or.inl heof)]
      rw [hres]
      exact ⟨s, .done, [], by simp, ⟨herr, hconcat, trivial, heof⟩, by simp, by simp,
        fun hf => by rw [hf] at heof; simp at heof, by simpa using hcons⟩
    | header cs =>
      obtain ⟨herr, hconcat, hwfh, hce, heof, hn⟩ := hInv
      have hres : chunkReadLoop (f + 1) s bufLen consumed out =
          (if consumed > 0 ∧ ¬ s.headerAvailable = true then some (s, consumed, out)
           else chunkReadLoop f s.beginChunk bufLen consumed out) := by
        conv_lhs => unfold chunkReadLoop
        rw [if_neg (by rw [heof, herr]; simp)]
        rw [if_neg (show ¬ s.check_end = true by rw [hce]; simp)]
        simp only []
        rw [if_pos hn]
      rw [hres]
      exact headerPart_spec f ih s cs bufLen consumed out
        ⟨herr, hconcat, hwfh, hce, heof, hn⟩ hbuf hcons
        (by simp only [posRemaining] at hfuel; omega)
    | trailer cs =>
      obtain ⟨herr, hconcat, hwf, hce, heof, hn⟩ := hInv
      have hconcat' : s.reader.concat = 13 :: 10 :: encodeChunked cs := by
        rw [hconcat]
        simp [posRemaining, crlfB]
      by_cases hbrk : consumed > 0 ∧ s.reader.buf.length < 2
      · have hres : chunkReadLoop (f + 1) s bufLen consumed out =
            some (s, consumed, out) := by
          unfold chunkReadLoop
          rw [if_neg (by rw [heof, herr]; simp)]
          rw [if_pos hce]
          rw [if_pos hbrk]
        rw [hres]
        obtain ⟨hb1, -⟩ := hbrk
        exact ⟨s, .trailer cs, [], by simp, ⟨herr, hconcat, hwf, hce, heof, hn⟩,
          by simp, by simp, fun _ => by simpa using hb1, by simpa using hcons⟩
      · have hrex := BufRd.readExact_spec s.reader 2 (by rw [hconcat']; simp)
        have h1 : (s.reader.readExact 2).1 = some [13, 10] := by
          rw [hrex.1, hconcat']
          rfl
        have h2 : (s.reader.readExact 2).2.concat = encodeChunked cs := by
          rw [hrex.2, hconcat']
          rfl
        have hres : chunkReadLoop (f + 1) s bufLen consumed out =
            (if consumed > 0 ∧ ¬ ({ s with reader := (s.reader.readExact 2).2, check_end := false } : ChunkRd).headerAvailable = true then
              some ({ s with reader := (s.reader.readExact 2).2, check_end := false }, consumed, out)
             else chunkReadLoop f ({ s with reader := (s.reader.readExact 2).2, check_end := false } : ChunkRd).beginChunk bufLen consumed out) := by
          conv_lhs => unfold chunkReadLoop
          rw [if_neg (by rw [heof, herr]; simp)]
          rw [if_pos hce]
          rw [if_neg hbrk]
          simp only []
          rw [h1]
          simp only []
          rw [if_neg (show ¬ ¬ ([13, 10] : List Nat) = crlfB by simp [crlfB])]
          simp only []
          rw [if_pos (show ({ s with reader := (s.reader.readExact 2).2, check_end := false } : ChunkRd).n = 0 from hn)]
        rw [hres]
        have hInv2 : ChunkInv ({ s with reader := (s.reader.readExact 2).2, check_end := false } : ChunkRd) (.header cs) := ⟨herr, h2, hwf, rfl, heof, hn⟩
        have hpart := headerPart_spec f ih _ cs bufLen consumed out hInv2 hbuf hcons
          (by simp only [posRemaining, crlfB, List.length_append, List.length_cons,
                List.length_nil] at hfuel
              omega)
        obtain ⟨s2, pos2, δ, hresp, hInv3, hdec, hrem, hprog, hle⟩ := hpart
        refine ⟨s2, pos2, δ, hresp, hInv3, ?_, ?_, hprog, hle⟩
        · exact hdec
        · simp only [posRemaining, crlfB, List.length_append, List.length_cons,
            List.length_nil] at hrem ⊢
          omega
    | payload p cs =>
      obtain ⟨herr, hconcat, hwfp, hce, heof, hn⟩ := hInv
      obtain ⟨hpne, hwfc⟩ := hwfp
      have hplen : 0 < p.length := List.length_pos.mpr hpne
      have hconcat' : s.reader.concat = p ++ (crlfB ++ encodeChunked cs) := by
        rw [hconcat]
        simp [posRemaining, List.append_assoc]
      by_cases hbc : bufLen = consumed
      · have hres : chunkReadLoop (f + 1) s bufLen consumed out =
            some (s, consumed, out) := by
          unfold chunkReadLoop
          rw [if_neg (by rw [heof, herr]; simp)]
          rw [if_neg (show ¬ s.check_end = true by rw [hce]; simp)]
          simp only []
          rw [if_neg (show ¬ s.n = 0 by rw [hn]; omega)]
          rw [if_pos hbc]
        rw [hres]
        exact ⟨s, .payload p cs, [], by simp,
          ⟨herr, hconcat, ⟨hpne, hwfc⟩, hce, heof, hn⟩, by simp, by simp,
          fun _ => by simp only [List.length_nil, Nat.add_zero]; omega,
          by simpa using hcons⟩
      · obtain ⟨m, hmk, hout, hdrop, hpos⟩ :=
          BufRd.read_spec s.reader (min (consumed + s.n) bufLen - consumed)
        obtain ⟨bytes, r2, hread⟩ :
            ∃ x y, s.reader.read (min (consumed + s.n) bufLen - consumed) = (x, y) :=
          ⟨_, _, rfl⟩
        rw [hread] at hout hdrop
        simp only [] at hout hdrop
        have hkpos : 1 ≤ min (consumed + s.n) bufLen - consumed := by
          rw [hn]
          omega
        have hm1 : 1 ≤ m := hpos hkpos (by
          rw [hconcat']
          exact fun hcontra => hpne (List.append_eq_nil.mp hcontra).1)
        have hmp : m ≤ p.length := by
          rw [hn] at hmk
          omega
        have hbytes : bytes = p.take m := by
          rw [hout, hconcat', List.take_append_of_le_length hmp]
        have hblen : bytes.length = m := by
          rw [hbytes, List.length_take]
          omega
        have hr2 : r2.concat = p.drop m ++ (crlfB ++ encodeChunked cs) := by
          rw [hdrop, hconcat', List.drop_append_of_le_length hmp]
        have hcb2 : consumed + bytes.length ≤ bufLen := by
          rw [hn] at hmk
          rw [hblen]
          omega
        unfold chunkReadLoop
        rw [if_neg (by rw [heof, herr]; simp)]
        rw [if_neg (show ¬ s.check_end = true by rw [hce]; simp)]
        simp only []
        rw [if_neg (show ¬ s.n = 0 by rw [hn]; omega)]
        rw [if_neg hbc]
        rw [hread]
        simp only []
        split
        · rename_i hfin
          have hm2 : s.n - bytes.length = 0 := hfin.1
          have hmeq : m = p.length := by
            rw [hn, hblen] at hm2
            omega
          refine callSpec_extend (.trailer cs) bytes
            (ih _ (.trailer cs) bufLen (consumed + bytes.length) (out ++ bytes)
              ?_ hbuf hcb2 ?_) ?_ ?_ ?_
          · refine ⟨herr, ?_, hwfc, rfl, heof, hm2⟩
            show r2.concat = posRemaining (.trailer cs)
            rw [hr2, List.drop_eq_nil_of_le (by omega)]
            simp [posRemaining]
          · simp only [posRemaining, crlfB, List.length_append, List.length_cons,
              List.length_nil] at hfuel ⊢
            omega
          · simp only [posDecoded]
            rw [hbytes, hmeq, List.take_length]
          · simp only [posRemaining, crlfB, List.length_append, List.length_cons,
              List.length_nil]
            omega
          · omega
        · rename_i hnfin
          have hlt : m < p.length := by
            by_contra hc
            apply hnfin
            constructor
            · show s.n - bytes.length = 0
              rw [hn, hblen]
              omega
            · show s.err.isNone = true
              rw [herr]
              rfl
          refine callSpec_extend (.payload (p.drop m) cs) bytes
            (ih _ (.payload (p.drop m) cs) bufLen (consumed + bytes.length) (out ++ bytes)
              ?_ hbuf hcb2 ?_) ?_ ?_ ?_
          · refine ⟨herr, ?_, ⟨?_, hwfc⟩, hce, heof, ?_⟩
            · show r2.concat = posRemaining (.payload (p.drop m) cs)
              rw [hr2]
              simp [posRemaining, List.append_assoc]
            · have hdlen : 0 < (p.drop m).length := by
                rw [List.length_drop]
                omega
              exact List.length_pos.mp hdlen
            · show s.n - bytes.length = (p.drop m).length
              rw [hn, hblen, List.length_drop]
          · simp only [posRemaining, crlfB, List.length_append, List.length_cons,
              List.length_nil, List.length_drop] at hfuel ⊢
            omega
          · simp only [posDecoded]
            rw [← List.append_assoc, hbytes, List.take_append_drop]
          · simp only [posRemaining, crlfB, List.length_append, List.length_cons,
              List.length_nil, List.length_drop]
            omega
          · omega


/-- Driving the decoder to EOF from any invariant position delivers
exactly the remaining decoded bytes. -/
lemma chunkReadToEnd_drive : ∀ (n : Nat) (pos : ChunkPos) (s : ChunkRd) (acc : List Nat)
    (bufLen fuel : Nat),
    (posDecoded pos).length < n →
    ChunkInv s pos → 1 ≤ bufLen →
    (posRemaining pos).length + (posDecoded pos).length + 4 ≤ fuel →
    chunkReadToEnd fuel s bufLen acc = some (.ok (acc ++ posDecoded pos)) := by
  intro n
  induction n with
  | zero =>
    intro pos s acc bufLen fuel hlt
    exact absurd hlt (by omega)
  | succ n ih =>
    intro pos s acc bufLen fuel hlt hInv hbuf hfuel
    obtain ⟨f, rfl⟩ : ∃ f, fuel = f + 1 := ⟨fuel - 1, by omega⟩
    obtain ⟨s1, pos1, δ, hres, hInv1, hdec, hrem, hprog, hle⟩ :=
      chunkReadLoop_call (f + 1) s pos bufLen 0 [] hInv hbuf (by omega) (by omega)
    have herr1 : s1.err = none := hInv1.1
    have hcr : chunkRead (f + 1) s bufLen = some (s1, .ok (0 + δ.length), [] ++ δ) := by
      unfold chunkRead
      rw [hres]
      simp only []
      rw [herr1]
    unfold chunkReadToEnd
    rw [hcr]
    simp only []
    have hdlen : (posDecoded pos).length = δ.length + (posDecoded pos1).length := by
      rw [hdec]
      simp [List.length_append]
    rcases Nat.eq_zero_or_pos δ.length with hz | hpos0
    · rw [if_pos (by omega)]
      have hδnil : δ = [] := List.length_eq_zero.mp hz
      have heof1 : s1.eof = true := by
        by_contra hc
        have hc2 : s1.eof = false := by
          revert hc
          cases s1.eof <;> simp
        have := hprog hc2
        omega
      have hdec1 : posDecoded pos1 = [] := by
        obtain ⟨-, -, -, hflags⟩ := hInv1
        cases pos1 with
        | done => rfl
        | header cs2 => exact absurd heof1 (by rw [hflags.2.1]; simp)
        | payload p2 cs2 => exact absurd heof1 (by rw [hflags.2.1]; simp)
        | trailer cs2 => exact absurd heof1 (by rw [hflags.2.1]; simp)
      have hdecpos : posDecoded pos = [] := by
        rw [hdec, hδnil, hdec1]
        rfl
      rw [hdecpos, List.append_nil]
    · rw [if_neg (by omega)]
      have hlt1 : (posDecoded pos1).length < n := by omega
      have hfuel1 : (posRemaining pos1).length + (posDecoded pos1).length + 4 ≤ f := by
        omega
      rw [ih pos1 s1 (acc ++ ([] ++ δ)) bufLen f hlt1 hInv1 hbuf hfuel1, hdec]
      simp [List.append_assoc]

/-- C1: for every well-formed chunked stream — a sequence of nonempty
chunks, each encoded as its size in hexadecimal, `\r\n`, that many
payload bytes, `\r\n`, terminated by the zero-size chunk `0\r\n` —
reading the `ChunkReader` to EOF (repeated `read` calls into a buffer of
any positive length until `Ok(0)`) succeeds and yields exactly the
concatenation of the chunk payloads in source order. -/
theorem c1_chunked_decode (cs : List (List Nat)) (bufLen : Nat)
    (hwf : ∀ c ∈ cs, c ≠ [] ∧ c.length < 16 ^ 16) (hbuf : 1 ≤ bufLen) :
    chunkReadToEnd (2 * (encodeChunked cs).length + 8)
      (ChunkRd.new (encodeChunked cs)) bufLen [] = some (.ok cs.flatten) := by
  have hInv : ChunkInv (ChunkRd.new (encodeChunked cs)) (.header cs) :=
    ⟨rfl, by simp [ChunkRd.new, BufRd.concat, posRemaining], hwf, rfl, rfl, rfl⟩
  have h := chunkReadToEnd_drive (cs.flatten.length + 1) (.header cs)
    (ChunkRd.new (encodeChunked cs)) [] bufLen (2 * (encodeChunked cs).length + 8)
    (by simp [posDecoded]) hInv hbuf
    (by have := flatten_le_encode cs
        simp only [posRemaining, posDecoded]
        omega)
  simpa [posDecoded] using h

/-- Witness for C1 on the specification's example: decoding
`"7\r\nhello, \r\n17\r\nworld! 0123456789abcdef\r\n0\r\n"` yields
`"hello, world! 0123456789abcdef"`. -/
theorem c1_chunked_decode_witness :
    (∀ c ∈ ([[104,101,108,108,111,44,32],
             [119,111,114,108,100,33,32,48,49,50,51,52,53,54,55,56,57,97,98,99,100,101,102]] : List (List Nat)),
        c ≠ [] ∧ c.length < 16 ^ 16) ∧ 1 ≤ 8192 ∧
    chunkReadToEnd 96
      (ChunkRd.new [55,13,10,104,101,108,108,111,44,32,13,10,49,55,13,10,119,111,114,108,100,33,32,48,49,50,51,52,53,54,55,56,57,97,98,99,100,101,102,13,10,48,13,10])
      8192 []
      = some (.ok [104,101,108,108,111,44,32,119,111,114,108,100,33,32,48,49,50,51,52,53,54,55,56,57,97,98,99,100,101,102]) := by
  refine ⟨by decide, by norm_num, ?_⟩
  have h := c1_chunked_decode
    [[104,101,108,108,111,44,32],
     [119,111,114,108,100,33,32,48,49,50,51,52,53,54,55,56,57,97,98,99,100,101,102]] 8192 (by decide) (by norm_num)
  have henc : encodeChunked
      [[104,101,108,108,111,44,32],
       [119,111,114,108,100,33,32,48,49,50,51,52,53,54,55,56,57,97,98,99,100,101,102]] =
      [55,13,10,104,101,108,108,111,44,32,13,10,49,55,13,10,119,111,114,108,100,33,32,48,49,50,51,52,53,54,55,56,57,97,98,99,100,101,102,13,10,48,13,10] := rfl
  have hflat : ([[104,101,108,108,111,44,32],
       [119,111,114,108,100,33,32,48,49,50,51,52,53,54,55,56,57,97,98,99,100,101,102]] : List (List Nat)).flatten =
      [104,101,108,108,111,44,32,119,111,114,108,100,33,32,48,49,50,51,52,53,54,55,56,57,97,98,99,100,101,102] := rfl
  rw [henc, hflat] at h
  have hlen : 2 * ([55,13,10,104,101,108,108,111,44,32,13,10,49,55,13,10,119,111,114,108,100,33,32,48,49,50,51,52,53,54,55,56,57,97,98,99,100,101,102,13,10,48,13,10] : List Nat).length + 8 = 96 := rfl
  rw [hlen] at h
  exact h

/-! ## Theorems for the claims -/

/-- C6: `execute_with_deadline` checks the deadline at the top of each
iteration: whenever the deadline lies strictly before the `Instant::now()`
value sampled at the top of an iteration, the call returns `Err(Timeout)`
with the state unchanged and without invoking `func` again (the
invocation count stays at the entry value); in particular, with a
deadline earlier than the current instant on entry (`i = 0`,
invocation count `0`), `func` is never invoked. -/
theorem c6_deadline_checked_each_iteration {σ : Type} (fuel deadline i : Nat)
    (nows : Nat → Nat) (f : Nat → σ → σ × Except Error Bool) (st : σ)
    (hfuel : 1 ≤ fuel) (hpast : deadline < nows i) :
    executeWithDeadline fuel deadline nows f st i = some (.error .timeout, st, i) := by
  obtain ⟨g, rfl⟩ : ∃ g, fuel = g + 1 := ⟨fuel - 1, by omega⟩
  unfold executeWithDeadline
  rw [if_pos hpast]

/-- Witness for C6 at a concrete input: deadline `0`, clock constantly
`1`, so the very first check fires and `f` is called zero times. -/
theorem c6_deadline_checked_each_iteration_witness :
    1 ≤ 1 ∧ (0 : Nat) < 1 ∧
      executeWithDeadline (σ := Nat) 1 0 (fun _ => 1)
        (fun _ s => (s, .ok false)) 0 0 = some (.error .timeout, 0, 0) :=
  ⟨le_rfl, Nat.zero_lt_one,
    c6_deadline_checked_each_iteration 1 0 0 (fun _ => 1)
      (fun _ s => (s, .ok false)) 0 le_rfl Nat.zero_lt_one⟩

/-- C10: `parse_hex_uint` of the empty byte sequence is `Ok(0)`, and a
chunk-size line that is a bare `\r\n` (so empty after trimming trailing
whitespace and stripping the extension) makes `begin_chunk` record a
zero-size chunk: the EOF flag is set, the pending count is `0`, and no
error is recorded. -/
theorem c10_empty_chunk_size_line_is_eof :
    parse_hex_uint [] = .ok 0 ∧
    ∀ (s : ChunkRd) (rest : List Nat), s.reader.concat = 13 :: 10 :: rest →
      (s.beginChunk).eof = true ∧ (s.beginChunk).n = 0 ∧
        (s.beginChunk).err = s.err := by
  refine ⟨rfl, ?_⟩
  intro s rest hc
  have hline := read_chunk_line_spec s.reader [13] rest
    (by simpa using hc)
    (by intro x hx; rcases List.mem_singleton.mp hx with rfl; decide)
    (by norm_num [maxLineLength])
  have hempty : remove_chunk_extension (trim_trailing_whitespace ([13] ++ [10])) = [] := by
    rfl
  have h1 := hline.1
  rw [hempty] at h1
  unfold ChunkRd.beginChunk
  rw [h1]
  exact ⟨rfl, rfl, rfl⟩

/-- Witness for C10 at a concrete input: a reader whose pending bytes
are exactly `\r\n` followed by `"XY"`. -/
theorem c10_empty_chunk_size_line_is_eof_witness :
    ((ChunkRd.new [13, 10, 88, 89]).beginChunk).eof = true ∧
      ((ChunkRd.new [13, 10, 88, 89]).beginChunk).n = 0 ∧
      ((ChunkRd.new [13, 10, 88, 89]).beginChunk).err = (ChunkRd.new [13, 10, 88, 89]).err :=
  c10_empty_chunk_size_line_is_eof.2 (ChunkRd.new [13, 10, 88, 89]) [88, 89] rfl

/-! ## Header-line and status-line lemmas -/

lemma findIdx?_mem {l : List Nat} (h : (58 : Nat) ∈ l) :
    l.findIdx? (fun b => b == 58) = some (l.findIdx (fun b => b == 58)) := by
  have hs : (l.findIdx? (fun b => b == 58)).isSome = true := by
    rw [List.findIdx?_isSome, List.any_eq_true]
    exact ⟨58, h, by simp⟩
  obtain ⟨i, hi⟩ := Option.isSome_iff_exists.mp hs
  obtain ⟨_, heq⟩ := List.findIdx?_eq_some_iff_findIdx_eq.mp hi
  rw [hi, heq]

lemma contains58_iff (l : List Nat) : l.contains 58 = true ↔ (58 : Nat) ∈ l := by
  rw [List.contains_iff_exists_mem_beq]
  constructor
  · rintro ⟨a, ha, hb⟩
    have : (58 : Nat) = a := by simpa using hb
    rwa [this]
  · intro h
    exact ⟨58, h, by simp⟩

lemma headerLineStep_eq (l : List Nat) (hmem : (58 : Nat) ∈ l) :
    headerLineStep l =
      (if (l.drop (l.findIdx (fun b => b == 58))).length < 2 then none
       else some (l.take (l.findIdx (fun b => b == 58)),
         (l.drop (l.findIdx (fun b => b == 58))).drop 2)) := by
  unfold headerLineStep
  rw [findIdx?_mem hmem]

lemma headerLineStep_ok (l : List Nat) (hmem : (58 : Nat) ∈ l)
    (hlen : l.findIdx (fun b => b == 58) + 2 ≤ l.length) :
    headerLineStep l = some (l.take (l.findIdx (fun b => b == 58)),
      l.drop (l.findIdx (fun b => b == 58) + 2)) := by
  rw [headerLineStep_eq l hmem]
  rw [if_neg (by
    simp only [List.length_drop]
    omega)]
  rw [List.drop_drop]

lemma headerLineStep_none (l : List Nat) (hmem : (58 : Nat) ∈ l)
    (hlen : l.length < l.findIdx (fun b => b == 58) + 2) :
    headerLineStep l = none := by
  rw [headerLineStep_eq l hmem]
  rw [if_pos (by
    simp only [List.length_drop]
    have : l.findIdx (fun b => b == 58) < l.length :=
      List.findIdx_lt_length_of_exists ⟨58, hmem, by simp⟩
    omega)]

lemma mapM_headerLineStep_ok : ∀ (ls : List (List Nat)),
    (∀ l ∈ ls, (58 : Nat) ∈ l) →
    (∀ l ∈ ls, l.findIdx (fun b => b == 58) + 2 ≤ l.length) →
    ls.mapM headerLineStep = some (ls.map (fun l =>
      (l.take (l.findIdx (fun b => b == 58)),
       l.drop (l.findIdx (fun b => b == 58) + 2)))) := by
  intro ls
  induction ls with
  | nil => intro _ _; rfl
  | cons l ls ih =>
    intro hmem hlen
    rw [List.mapM_cons, headerLineStep_ok l (hmem l (by simp)) (hlen l (by simp)),
      ih (fun x hx => hmem x (by simp [hx])) (fun x hx => hlen x (by simp [hx]))]
    rfl

lemma mapM_headerLineStep_none : ∀ (ls : List (List Nat)),
    (∃ l ∈ ls, (58 : Nat) ∈ l ∧ l.length < l.findIdx (fun b => b == 58) + 2) →
    ls.mapM headerLineStep = none := by
  intro ls
  induction ls with
  | nil => rintro ⟨l, hl, _⟩; exact absurd hl (List.not_mem_nil l)
  | cons l ls ih =>
    rintro ⟨x, hx, hxmem, hxlen⟩
    rcases List.mem_cons.mp hx with rfl | hxtail
    · rw [List.mapM_cons, headerLineStep_none x hxmem hxlen]
      rfl
    · rw [List.mapM_cons]
      cases hstep : headerLineStep l
      · rfl
      · rw [ih ⟨x, hxtail, hxmem, hxlen⟩]
        rfl

/-- C2 counterexample: for the single header line `"a:xy"` (no space
after the colon) the parser succeeds but the stored value is `"y"`, not
the claimed text after the `:` (`"xy"`): `value[2..]` removes the byte
after the colon unconditionally. -/
theorem c2_counterexample :
    headersFromStr [97, 58, 120, 121] = .ok [([97], [121])] ∧
      ([121] : List Nat) ≠ [120, 121] := by
  constructor
  · rfl
  · decide

/-- C2 (amended): `Headers::from_str` on an ASCII block: a block with a
line lacking `:` fails with `ParseErr::Invalid` (not `HeadersErr`); when
every line contains `:`, each line must also have at least one byte
after its first `:`, otherwise the `value[2..]` slice panics; on success
each line yields the text before the first `:` as the name and the text
after the `:` with the single immediately following byte removed
unconditionally (whether or not it is a space) as the value. -/
theorem c2_header_block_parsing (s : List Nat) (hascii : ∀ b ∈ s, b < 128) :
    ((¬ ∀ l ∈ rustLines (rustTrim s), (58 : Nat) ∈ l) →
      headersFromStr s = .err .invalid) ∧
    ((∀ l ∈ rustLines (rustTrim s), (58 : Nat) ∈ l) →
      (∀ l ∈ rustLines (rustTrim s), l.findIdx (fun b => b == 58) + 2 ≤ l.length) →
      headersFromStr s = .ok ((rustLines (rustTrim s)).map (fun l =>
        (l.take (l.findIdx (fun b => b == 58)),
         l.drop (l.findIdx (fun b => b == 58) + 2))))) ∧
    ((∀ l ∈ rustLines (rustTrim s), (58 : Nat) ∈ l) →
      (∃ l ∈ rustLines (rustTrim s), l.length < l.findIdx (fun b => b == 58) + 2) →
      headersFromStr s = .crash) := by
  refine ⟨?_, ?_, ?_⟩
  · intro hnot
    have hall : (rustLines (rustTrim s)).all (fun e => e.contains 58) = false := by
      rw [List.all_eq_false]
      push_neg at hnot
      obtain ⟨l, hl, hlno⟩ := hnot
      exact ⟨l, hl, by rw [Bool.not_eq_true, Bool.eq_false_iff]
                       intro hcon
                       exact hlno ((contains58_iff l).mp hcon)⟩
    simp only [headersFromStr, hall, Bool.false_eq_true, if_false]
  · intro hmem hlen
    have hall : (rustLines (rustTrim s)).all (fun e => e.contains 58) = true := by
      rw [List.all_eq_true]
      intro l hl
      exact (contains58_iff l).mpr (hmem l hl)
    simp only [headersFromStr, hall, if_true]
    rw [mapM_headerLineStep_ok _ hmem hlen]
  · intro hmem hbad
    have hall : (rustLines (rustTrim s)).all (fun e => e.contains 58) = true := by
      rw [List.all_eq_true]
      intro l hl
      exact (contains58_iff l).mpr (hmem l hl)
    simp only [headersFromStr, hall, if_true]
    obtain ⟨l, hl, hllen⟩ := hbad
    rw [mapM_headerLineStep_none _ ⟨l, hl, hmem l hl, hllen⟩]

/-- Witness for C2 at a concrete input: the block `"K: v"` parses to
the single pair `("K", "v")` (the colon and the single space removed). -/
theorem c2_header_block_parsing_witness :
    headersFromStr [75, 58, 32, 118] = .ok [([75], [118])] := by
  have h := (c2_header_block_parsing [75, 58, 32, 118] (by decide)).2.1
    (by decide) (by decide)
  rw [h]
  rfl

/-- C5 counterexample: the status line `"HTTP/1.1 200"` has only two
space-separated parts; `Status::from_str` panics indexing part 2 (it
does not fail with `StatusErr`). -/
theorem c5_counterexample :
    statusFromStr [72, 84, 84, 80, 47, 49, 46, 49, 32, 50, 48, 48] = .crash ∧
      (RRes.crash : RRes ParseErr Status) ≠ .err .statusErr := by
  constructor
  · rfl
  · decide

/-- C5 (amended): `Status::from_str` splits the trimmed line at the
first two spaces (the reason keeps any further spaces); a line with
fewer than two space-separated parts panics with an index-out-of-bounds,
a non-numeric code part fails with `ParseErr::Int` (never `StatusErr`),
a two-part line with a numeric code panics indexing the reason, and a
three-part line with a numeric code parses into (version, code,
reason). -/
theorem c5_status_line_parsing (s : List Nat) :
    ((splitN 3 32 (rustTrim s)).length < 2 → statusFromStr s = .crash) ∧
    (∀ ver c, splitN 3 32 (rustTrim s) = [ver, c] → parseU16 c = none →
      statusFromStr s = .err .int) ∧
    (∀ ver c rea, splitN 3 32 (rustTrim s) = [ver, c, rea] → parseU16 c = none →
      statusFromStr s = .err .int) ∧
    (∀ ver c v, splitN 3 32 (rustTrim s) = [ver, c] → parseU16 c = some v →
      statusFromStr s = .crash) ∧
    (∀ ver c rea v, splitN 3 32 (rustTrim s) = [ver, c, rea] → parseU16 c = some v →
      statusFromStr s = .ok ⟨ver, v, rea⟩) := by
  refine ⟨?_, ?_, ?_, ?_, ?_⟩
  · intro hlen
    rcases hp : splitN 3 32 (rustTrim s) with _ | ⟨x, _ | ⟨y, t⟩⟩
    · simp [statusFromStr, hp]
    · simp [statusFromStr, hp]
    · rw [hp] at hlen
      simp at hlen
      omega
  · intro ver c hp hc
    simp [statusFromStr, hp, hc]
  · intro ver c rea hp hc
    simp [statusFromStr, hp, hc]
  · intro ver c v hp hc
    simp [statusFromStr, hp, hc]
  · intro ver c rea v hp hc
    simp [statusFromStr, hp, hc]

/-- Witness for C5 at a concrete input: `"HTTP/1.1 404 Not Found"`
parses with code `404` and reason `"Not Found"` (the reason contains a
space). -/
theorem c5_status_line_parsing_witness :
    statusFromStr
        [72, 84, 84, 80, 47, 49, 46, 49, 32, 52, 48, 52, 32, 78, 111, 116, 32, 70, 111, 117, 110, 100] =
      .ok ⟨[72, 84, 84, 80, 47, 49, 46, 49], 404, [78, 111, 116, 32, 70, 111, 117, 110, 100]⟩ :=
  (c5_status_line_parsing _).2.2.2.2
    [72, 84, 84, 80, 47, 49, 46, 49] [52, 48, 52] [78, 111, 116, 32, 70, 111, 117, 110, 100] 404
    (by rfl) (by rfl)

/-- C9: for a buffer of length at least 4 that contains no `\r\n\r\n`
infix, `find_slice` finds nothing, so `Response::try_from` parses the
entire buffer as the head (status line plus header block) and appends
nothing to the writer; the length hypothesis matters because
`find_slice` computes `data.len() - e.len()`, which panics (debug:
subtraction overflow; release: out-of-bounds slice) whenever the data is
shorter than the four-byte pattern. -/
theorem c9_no_blank_line_whole_buffer_is_head (res w : List Nat)
    (hlen : 4 ≤ res.length) (hno : ¬ crlf2B <:+: res) :
    respTryFrom res w = (fromHead res, w) ∧
    ∀ d : List Nat, d.length < 4 → find_slice d crlf2B = .crash := by
  constructor
  · have hslice : find_slice res crlf2B = .ok none := by
      unfold find_slice
      rw [if_neg (by simp [crlf2B]; omega)]
      have hfind : (List.range (res.length - crlf2B.length + 1)).find?
          (fun i => decide ((res.drop i).take crlf2B.length = crlf2B)) = none := by
        rw [List.find?_eq_none]
        intro i _
        simp only [decide_eq_true_eq]
        intro heq
        apply hno
        have heq4 : (res.drop i).take 4 = crlf2B := heq
        refine ⟨res.take i, (res.drop i).drop 4, ?_⟩
        rw [← heq4, List.append_assoc, List.take_append_drop, List.take_append_drop]
      rw [hfind]
      rfl
    have hne : res.isEmpty = false := by
      rw [Bool.eq_false_iff]
      intro hx
      have := List.isEmpty_iff.mp hx
      rw [this] at hlen
      simp at hlen
    simp only [respTryFrom, hne, Bool.false_eq_true, if_false, hslice, Option.getD_none,
      List.take_length, List.drop_length]
    cases hfh : fromHead res <;> simp
  · intro d hd
    unfold find_slice
    rw [if_pos (by simp [crlf2B]; omega)]

/-- Witness for C9 at a concrete input: the four bytes `"HTTP"` hold no
`\r\n\r\n`, so the whole buffer is handed to `from_head` and the writer
stays empty; and a two-byte buffer makes `find_slice` panic. -/
theorem c9_no_blank_line_whole_buffer_is_head_witness :
    respTryFrom [72, 84, 84, 80] [] = (fromHead [72, 84, 84, 80], []) ∧
      find_slice [13, 10] crlf2B = .crash :=
  ⟨(c9_no_blank_line_whole_buffer_is_head [72, 84, 84, 80] [] (by norm_num)
      (by decide)).1,
    (c9_no_blank_line_whole_buffer_is_head [72, 84, 84, 80] [] (by norm_num)
      (by decide)).2 [13, 10] (by norm_num)⟩

/-! ## URI lemmas -/

lemma sliceR_full (s : List Nat) : sliceR s ⟨0, s.length⟩ = s := by
  simp [sliceR]

lemma get_chunks_some (s : List Nat) (r : RangeC) (sep : List Nat) :
    get_chunks s (some r) sep =
      match findSub (sliceR s r) sep with
      | some i => (rFilter ⟨r.start, r.start + i + sep.length - 1⟩,
                   rFilter ⟨r.start + i + sep.length, r.stop⟩)
      | none => if (sliceR s r).isEmpty then (none, none) else (some r, none) := rfl

lemma findSub_zero (hay pat : List Nat) (hpre : pat.isPrefixOf hay = true) :
    findSub hay pat = some 0 := by
  unfold findSub
  rw [List.range_succ_eq_map, List.find?_cons_of_pos]
  simpa using hpre

lemma findSub_none_58 (hay : List Nat) (hno : (58 : Nat) ∉ hay) :
    findSub hay [58] = none := by
  unfold findSub
  rw [List.find?_eq_none]
  intro i _
  simp only [Bool.not_eq_true]
  rw [Bool.eq_false_iff]
  intro hpre
  have hmem : (58 : Nat) ∈ hay.drop i := by
    have := List.IsPrefix.mem (List.mem_singleton.mpr rfl) (List.isPrefixOf_iff_prefix.mp hpre)
    exact this
  exact hno (List.mem_of_mem_drop hmem)

/-- C4 counterexample: `Uri::try_from("foo")` succeeds (the whole input
becomes the scheme); it does not fail with `UriErr` even though the
input contains no `:`. -/
theorem c4_counterexample :
    uriTryFrom [102, 111, 111] =
      .ok ⟨[102, 111, 111], ⟨0, 3⟩, none, none, none, none⟩ := by
  rfl

/-- C4 (amended): `Uri::try_from` fails with `UriErr` on the empty
input and on any input whose scheme is empty (first byte `:`), but an
input that contains no `:` at all parses successfully when nonempty,
with the entire input as the scheme range and no authority, path, query
or fragment: `get_chunks` hands back the whole range when the separator
is absent. -/
theorem c4_scheme_split (s : List Nat) :
    (s = [] → uriTryFrom s = .error (.parse .uriErr)) ∧
    (s.head? = some 58 → uriTryFrom s = .error (.parse .uriErr)) ∧
    (s ≠ [] → (58 : Nat) ∉ s →
      uriTryFrom s = .ok ⟨s, ⟨0, s.length⟩, none, none, none, none⟩) := by
  refine ⟨?_, ?_, ?_⟩
  · rintro rfl
    rfl
  · intro hhead
    have hpre : ([58] : List Nat).isPrefixOf s = true := by
      cases s with
      | nil => simp at hhead
      | cons x t =>
        simp only [List.head?_cons, Option.some_inj] at hhead
        subst hhead
        simp [List.isPrefixOf]
    have h1 : (get_chunks s (some ⟨0, s.length⟩) [58]).1 = none := by
      rw [get_chunks_some, sliceR_full, findSub_zero s [58] hpre]
      rfl
    simp only [uriTryFrom, h1]
  · intro hne hno
    have h1 : get_chunks s (some ⟨0, s.length⟩) [58] = (some ⟨0, s.length⟩, none) := by
      rw [get_chunks_some, sliceR_full, findSub_none_58 s hno]
      rw [if_neg (by
        rw [Bool.not_eq_true, Bool.eq_false_iff]
        intro hx
        exact hne (List.isEmpty_iff.mp hx))]
    simp only [uriTryFrom, h1]

/-- Witness for C4 at concrete inputs: `":x"` has an empty scheme and
fails with `UriErr`; `"zz"` has no colon and parses whole-as-scheme. -/
theorem c4_scheme_split_witness :
    uriTryFrom [58, 120] = .error (.parse .uriErr) ∧
      uriTryFrom [122, 122] = .ok ⟨[122, 122], ⟨0, 2⟩, none, none, none, none⟩ :=
  ⟨(c4_scheme_split [58, 120]).2.1 (by rfl),
    (c4_scheme_split [122, 122]).2.2 (by decide) (by decide)⟩

lemma rFilter_eq_some {r0 r : RangeC} (h : rFilter r0 = some r) :
    r = r0 ∧ r0.start ≠ r0.stop := by
  unfold rFilter at h
  split at h
  · exact ⟨(Option.some_inj.mp h).symm, by assumption⟩
  · cases h

lemma findSub_some_spec (hay pat : List Nat) (i : Nat)
    (h : findSub hay pat = some i) : pat.isPrefixOf (hay.drop i) = true := by
  unfold findSub at h
  have := List.find?_some h
  simpa using this

lemma findSub_some_le (hay pat : List Nat) (i : Nat)
    (h : findSub hay pat = some i) (hpat : pat ≠ []) :
    i + pat.length ≤ hay.length := by
  have hpre := List.isPrefixOf_iff_prefix.mp (findSub_some_spec hay pat i h)
  have hlen := hpre.length_le
  rw [List.length_drop] at hlen
  have hpat1 : 0 < pat.length := List.length_pos.mpr hpat
  omega

lemma get_chunks_snd_some (s : List Nat) (r0 : RangeC) (sep : List Nat) (r : RangeC)
    (h : (get_chunks s (some r0) sep).2 = some r) :
    ∃ i, findSub (sliceR s r0) sep = some i ∧
      r = ⟨r0.start + i + sep.length, r0.stop⟩ ∧
      r0.start + i + sep.length ≠ r0.stop := by
  rw [get_chunks_some] at h
  cases hf : findSub (sliceR s r0) sep with
  | none =>
    rw [hf] at h
    by_cases he : (sliceR s r0).isEmpty <;> simp [he] at h
  | some i =>
    rw [hf] at h
    obtain ⟨hr, hne⟩ := rFilter_eq_some h
    refine ⟨i, rfl, ?_, ?_⟩
    · rw [hr]
    · simpa using hne

lemma get_chunks_fst_found (s : List Nat) (r0 : RangeC) (sep : List Nat)
    (i : Nat) (hf : findSub (sliceR s r0) sep = some i) :
    (get_chunks s (some r0) sep).1 =
      rFilter ⟨r0.start, r0.start + i + sep.length - 1⟩ := by
  rw [get_chunks_some, hf]

/-- C3 counterexample: `Uri::try_from("a:b c")` succeeds, and its
`resource()` is `"b c"`: it neither begins with `/` nor is free of
spaces. -/
theorem c3_counterexample :
    uriTryFrom [97, 58, 98, 32, 99] =
      .ok ⟨[97, 58, 98, 32, 99], ⟨0, 1⟩, none, some ⟨2, 5⟩, none, none⟩ ∧
    Uri.resource ⟨[97, 58, 98, 32, 99], ⟨0, 1⟩, none, some ⟨2, 5⟩, none, none⟩ =
      [98, 32, 99] ∧
    ([98, 32, 99] : List Nat).head? ≠ some 47 ∧ (32 : Nat) ∈ [98, 32, 99] := by
  refine ⟨by rfl, by rfl, by decide, by decide⟩

lemma Uri.resource_none (u : Uri) (hp : u.path = none) : u.resource = [47] := by
  unfold Uri.resource
  rw [hp]

lemma Uri.resource_some (u : Uri) (p : RangeC) (hp : u.path = some p) :
    u.resource = u.inner.drop p.start := by
  unfold Uri.resource
  rw [hp]

lemma uriTryFrom_ok_inner (s : List Nat) (u : Uri) (h : uriTryFrom s = .ok u) :
    u.inner = s := by
  simp only [uriTryFrom] at h
  split at h
  · cases h
  · split at h
    · cases h
    · cases h
      rfl

/-- C3 (amended): for every input on which `Uri::try_from` succeeds,
`resource()` is the literal `/` when the path is absent, and otherwise
the suffix of the input starting at the path range; moreover, whenever
the remainder after the scheme's `:` begins with `//` (the authority
form), `resource()` does begin with `/`.  In general `resource()` need
not begin with `/` and may contain spaces (`c3_counterexample`). -/
theorem c3_resource_shape (s : List Nat) (u : Uri) (h : uriTryFrom s = .ok u) :
    (u.path = none → u.resource = [47]) ∧
    (∀ p, u.path = some p → u.resource = s.drop p.start) ∧
    (∀ r, (get_chunks s (some ⟨0, s.length⟩) [58]).2 = some r →
      ([47, 47] : List Nat).isPrefixOf (sliceR s r) = true →
      u.resource.head? = some 47) := by
  have hshape : u.inner = s := uriTryFrom_ok_inner s u h
  refine ⟨fun hp => Uri.resource_none u hp,
    fun p hp => by rw [Uri.resource_some u p hp, hshape], ?_⟩
  intro r hrem hpre
  suffices hq : ∀ q, u.path = some q → (s.drop q.start).head? = some 47 by
    cases hp : u.path with
    | none => rw [Uri.resource_none u hp]; rfl
    | some q => rw [Uri.resource_some u q hp, hshape]; exact hq q hp
  intro q hpq
  obtain ⟨i1, hf1, hr, hne1⟩ := get_chunks_snd_some s ⟨0, s.length⟩ [58] r hrem
  have hrstop : r.stop = s.length := by rw [hr]
  have hslice_r : sliceR s r = s.drop r.start := by
    unfold sliceR
    rw [hrstop, List.take_length]
  have hcont : containsSub (sliceR s r) [47, 47] = true := by
    unfold containsSub
    rw [findSub_zero _ _ hpre]
    rfl
  -- the input from `r.start` starts with `//`
  obtain ⟨t0, ht0⟩ : ∃ t0, s.drop r.start = 47 :: 47 :: t0 := by
    have hp2 := List.isPrefixOf_iff_prefix.mp hpre
    rw [hslice_r] at hp2
    obtain ⟨t, ht⟩ := hp2
    exact ⟨t, by rw [← ht]; rfl⟩
  have get_chunks_fst_start : ∀ (P q : RangeC) (sep : List Nat),
      (get_chunks s (some P) sep).1 = some q → q.start = P.start := by
    intro P q sep hpq
    rw [get_chunks_some] at hpq
    cases hf : findSub (sliceR s P) sep with
    | some i =>
      rw [hf] at hpq
      obtain ⟨hq, _⟩ := rFilter_eq_some hpq
      rw [hq]
    | none =>
      rw [hf] at hpq
      by_cases he : (sliceR s P).isEmpty = true
      · rw [if_pos he] at hpq
        simp at hpq
      · rw [if_neg he] at hpq
        have hPq : P = q := by simpa using hpq
        rw [← hPq]
  cases hscheme : (get_chunks s (some ⟨0, s.length⟩) [58]).1 with
  | none =>
    exfalso
    simp only [uriTryFrom, hscheme] at h
    exact Except.noConfusion h
  | some scheme =>
    simp only [uriTryFrom, hscheme, hrem] at h
    rw [if_pos hcont] at h
    cases hap2 : (get_chunks s (some ⟨r.start + 2, r.stop⟩) [47]).2 with
    | none =>
      -- no `/` after the authority: the path is `None`, contradicting `hpq`
      cases hap1 : (get_chunks s (some ⟨r.start + 2, r.stop⟩) [47]).1 with
      | none =>
        simp only [hap1, hap2] at h
        cases h
        simp at hpq
      | some a =>
        simp only [hap1] at h
        cases hA : authorityTryFrom (sliceR s a) with
        | error e =>
          simp only [hA] at h
          exact Except.noConfusion h
        | ok av =>
          simp only [hA, hap2] at h
          cases h
          simp at hpq
    | some u2 =>
      obtain ⟨i2, hf2, hu2, hne2⟩ :=
        get_chunks_snd_some s ⟨r.start + 2, r.stop⟩ [47] u2 hap2
      have hslice2 : sliceR s ⟨r.start + 2, r.stop⟩ = s.drop (r.start + 2) := by
        unfold sliceR
        rw [hrstop, List.take_length]
      have hu2start : u2.start = r.start + 2 + i2 + 1 := by
        rw [hu2]
        simp
      have hu2stop : u2.stop = r.stop := by rw [hu2]
      obtain ⟨t1, ht1⟩ : ∃ t1, s.drop (u2.start - 1) = 47 :: t1 := by
        have hp2 := List.isPrefixOf_iff_prefix.mp (findSub_some_spec _ _ _ hf2)
        rw [hslice2, List.drop_drop] at hp2
        obtain ⟨t, ht⟩ := hp2
        refine ⟨t, ?_⟩
        rw [hu2start]
        have harith : r.start + 2 + i2 + 1 - 1 = r.start + 2 + i2 := by omega
        rw [harith, ← ht]
        rfl
      have hslice47 : sliceR s ⟨u2.start - 1, u2.start⟩ = [47] := by
        unfold sliceR
        rw [List.drop_take, ht1]
        have h1 : u2.start - (u2.start - 1) = 1 := by omega
        rw [h1]
        rfl
      -- `q.start` ends up at `u2.start - 1` wherever the `?`/`#` splits cut
      have hfinish : q.start = u2.start - 1 → (s.drop q.start).head? = some 47 := by
        intro hqs
        rw [hqs, ht1]
        rfl
      have hpath_start : ∀ (X : Option RangeC × Option RangeC × Option RangeC),
          (X = if containsSub (sliceR s ⟨u2.start - 1, u2.stop⟩) [63] = true ∧
                  containsSub (sliceR s ⟨u2.start - 1, u2.stop⟩) [35] = true then
                ((get_chunks s (some ⟨u2.start - 1, u2.stop⟩) [63]).1,
                 (get_chunks s (get_chunks s (some ⟨u2.start - 1, u2.stop⟩) [63]).2 [35]).1,
                 (get_chunks s (get_chunks s (some ⟨u2.start - 1, u2.stop⟩) [63]).2 [35]).2)
              else if containsSub (sliceR s ⟨u2.start - 1, u2.stop⟩) [63] = true then
                ((get_chunks s (some ⟨u2.start - 1, u2.stop⟩) [63]).1,
                 (get_chunks s (some ⟨u2.start - 1, u2.stop⟩) [63]).2, none)
              else if containsSub (sliceR s ⟨u2.start - 1, u2.stop⟩) [35] = true then
                ((get_chunks s (some ⟨u2.start - 1, u2.stop⟩) [35]).1, none,
                 (get_chunks s (some ⟨u2.start - 1, u2.stop⟩) [35]).2)
              else (some ⟨u2.start - 1, u2.stop⟩, none, none)) →
          X.1 = some q → q.start = u2.start - 1 := by
        intro X hX hX1
        by_cases hc1 : containsSub (sliceR s ⟨u2.start - 1, u2.stop⟩) [63] = true ∧
            containsSub (sliceR s ⟨u2.start - 1, u2.stop⟩) [35] = true
        · rw [if_pos hc1] at hX
          rw [hX] at hX1
          exact get_chunks_fst_start _ q [63] hX1
        · rw [if_neg hc1] at hX
          by_cases hc2 : containsSub (sliceR s ⟨u2.start - 1, u2.stop⟩) [63] = true
          · rw [if_pos hc2] at hX
            rw [hX] at hX1
            exact get_chunks_fst_start _ q [63] hX1
          · rw [if_neg hc2] at hX
            by_cases hc3 : containsSub (sliceR s ⟨u2.start - 1, u2.stop⟩) [35] = true
            · rw [if_pos hc3] at hX
              rw [hX] at hX1
              exact get_chunks_fst_start _ q [35] hX1
            · rw [if_neg hc3] at hX
              rw [hX] at hX1
              simp only [Option.some_inj] at hX1
              rw [← hX1]
      cases hap1 : (get_chunks s (some ⟨r.start + 2, r.stop⟩) [47]).1 with
      | none =>
        simp only [hap1, hap2] at h
        rw [if_pos hslice47] at h
        cases h
        simp only [] at hpq
        exact hfinish (hpath_start _ rfl hpq)
      | some a =>
        simp only [hap1] at h
        cases hA : authorityTryFrom (sliceR s a) with
        | error e =>
          simp only [hA] at h
          exact Except.noConfusion h
        | ok av =>
          simp only [hA, hap2] at h
          rw [if_pos hslice47] at h
          cases h
          simp only [] at hpq
          exact hfinish (hpath_start _ rfl hpq)

/-- Witness for C3 at a concrete input: `"http://a.c/p q"`... the
authority form guarantees the leading slash. -/
theorem c3_resource_shape_witness :
    (Uri.resource ⟨[104, 116, 116, 112, 58, 47, 47, 97, 46, 99, 47, 112],
      ⟨0, 4⟩, some ⟨[97, 46, 99], none, none, ⟨0, 3⟩, none⟩,
      some ⟨10, 12⟩, none, none⟩).head? = some 47 := by
  have h := c3_resource_shape [104, 116, 116, 112, 58, 47, 47, 97, 46, 99, 47, 112]
    ⟨[104, 116, 116, 112, 58, 47, 47, 97, 46, 99, 47, 112],
      ⟨0, 4⟩, some ⟨[97, 46, 99], none, none, ⟨0, 3⟩, none⟩,
      some ⟨10, 12⟩, none, none⟩ (by rfl)
  exact h.2.2 ⟨5, 12⟩ (by rfl) (by rfl)

/-- C8: in `RequestBuilder::send` over an in-memory stream, the
caller-supplied writer is written only after the response head has been
parsed successfully: whenever `send` returns an error, that error is
exactly the head-read outcome and the writer is unchanged, and the
writer can differ from its initial contents only when the head parse
returned `Ok`. -/
theorem c8_send_no_partial_write (r : ReqBuilder) (input writer : List Nat) :
    (∀ e, (reqSend r input writer).1 = .err e →
      (reqReadHead input).1 = .err e ∧ (reqSend r input writer).2.2 = writer) ∧
    ((reqSend r input writer).2.2 ≠ writer →
      ∃ resp, (reqReadHead input).1 = .ok resp) := by
  cases hh : (reqReadHead input).1 with
  | crash =>
    refine ⟨?_, ?_⟩
    · intro e he
      simp only [reqSend, hh] at he
      exact RRes.noConfusion he
    · intro hw
      exfalso
      apply hw
      simp only [reqSend, hh]
  | err e0 =>
    refine ⟨?_, ?_⟩
    · intro e he
      simp only [reqSend, hh] at he
      cases he
      exact ⟨rfl, by simp only [reqSend, hh]⟩
    · intro hw
      exfalso
      apply hw
      simp only [reqSend, hh]
  | ok resp =>
    refine ⟨?_, fun _ => ⟨resp, rfl⟩⟩
    intro e he
    simp only [reqSend, hh] at he
    by_cases hm : r.method ≠ Method.HEAD
    · rw [if_pos hm] at he
      exact RRes.noConfusion he
    · rw [if_neg hm] at he
      exact RRes.noConfusion he

/-- Witness for C8 at a concrete input: the stream answers
`"HTTP/1.1 abc OK\r\n\r\n"`, whose status code is not numeric, so the
head parse fails with `ParseErr::Int`; `send` returns that error and a
writer primed with one byte is untouched. -/
theorem c8_send_no_partial_write_witness :
    (reqReadHead [72, 84, 84, 80, 47, 49, 46, 49, 32, 97, 98, 99, 32, 79, 75,
        13, 10, 13, 10]).1 = .err (.parse .int) ∧
    (reqSend ⟨⟨[104], ⟨0, 1⟩, none, none, none, none⟩, .GET, .http11, [], none⟩
        [72, 84, 84, 80, 47, 49, 46, 49, 32, 97, 98, 99, 32, 79, 75, 13, 10, 13, 10]
        [55]).2.2 = [55] :=
  (c8_send_no_partial_write
    ⟨⟨[104], ⟨0, 1⟩, none, none, none, none⟩, .GET, .http11, [], none⟩
    [72, 84, 84, 80, 47, 49, 46, 49, 32, 97, 98, 99, 32, 79, 75, 13, 10, 13, 10]
    [55]).1 (.parse .int) (by rfl)

/-- C7 counterexample (the repository's own `read_partial` unit test):
the stream `"7\r\n1234567"` ends after the chunk payload, so the two
trailer bytes cannot be read; the failed `read_exact` is ignored
(`.is_ok() && ...` discards the error), the empty next line parses as
the zero-size chunk, and reading to EOF returns `Ok("1234567")` instead
of failing with `InvalidData`. -/
theorem c7_counterexample :
    chunkReadToEnd 40
        (ChunkRd.new [55, 13, 10, 49, 50, 51, 52, 53, 54, 55]) 8192 [] =
      some (.ok [49, 50, 51, 52, 53, 54, 55]) := by
  rfl

/-- C7 (amended): after a chunk's payload the decoder reads exactly two
trailer bytes; when two bytes are available but differ from `\r\n`, the
read fails with a latched `InvalidData` error (the state keeps the
error); and once any error is latched, every subsequent `read` returns
it without advancing the decoder.  When the two bytes cannot be read,
however, the `read_exact` failure is discarded and decoding continues
(`c7_counterexample`). -/
theorem c7_bad_trailer_latched :
    (∀ (s : ChunkRd) (e : IOError) (bufLen fuel : Nat), 1 ≤ fuel → s.err = some e →
      chunkRead fuel s bufLen = some (s, .error e, [])) ∧
    (∀ (buf inner rest : List Nat) (b1 b2 : Nat) (n bufLen fuel : Nat), 1 ≤ fuel →
      buf ++ inner = b1 :: b2 :: rest → ¬ ([b1, b2] = ([13, 10] : List Nat)) →
      chunkRead fuel ⟨true, false, none, n, ⟨buf, inner⟩⟩ bufLen =
        some (⟨true, false, some ⟨.invalidData, "Malformed chunked encoding"⟩, n,
                (BufRd.readExact ⟨buf, inner⟩ 2).2⟩,
              .error ⟨.invalidData, "Malformed chunked encoding"⟩, [])) := by
  constructor
  · intro s e bufLen fuel hfuel herr
    obtain ⟨f, rfl⟩ : ∃ f, fuel = f + 1 := ⟨fuel - 1, by omega⟩
    have hloop : chunkReadLoop (f + 1) s bufLen 0 [] = some (s, 0, []) := by
      unfold chunkReadLoop
      rw [if_pos (Or.inr (by rw [herr]; rfl))]
    unfold chunkRead
    rw [hloop]
    simp only []
    rw [herr]
  · intro buf inner rest b1 b2 n bufLen fuel hfuel hconcat hne
    obtain ⟨f, rfl⟩ : ∃ f, fuel = f + 1 := ⟨fuel - 1, by omega⟩
    have hclen : (BufRd.concat ⟨buf, inner⟩) = b1 :: b2 :: rest := by
      rw [BufRd.concat_mk, hconcat]
    have hex := BufRd.readExact_spec ⟨buf, inner⟩ 2 (by rw [hclen]; simp)
    have h1 : (BufRd.readExact ⟨buf, inner⟩ 2).1 = some [b1, b2] := by
      rw [hex.1, hclen]
      rfl
    have hloop : chunkReadLoop (f + 1) ⟨true, false, none, n, ⟨buf, inner⟩⟩ bufLen 0 [] =
        some (⟨true, false, some ⟨.invalidData, "Malformed chunked encoding"⟩, n,
                (BufRd.readExact ⟨buf, inner⟩ 2).2⟩, 0, []) := by
      unfold chunkReadLoop
      rw [if_neg (by simp)]
      rw [if_pos (show (⟨true, false, none, n, ⟨buf, inner⟩⟩ : ChunkRd).check_end = true
        from rfl)]
      rw [if_neg (by simp)]
      simp only []
      rw [h1]
      simp only []
      rw [if_pos (show ¬ ([b1, b2] = crlfB) from by simpa [crlfB] using hne)]
    unfold chunkRead
    rw [hloop]

/-- Witness for C7 at concrete inputs: a latched error is returned
unchanged, and the trailer bytes `"AB"` produce the latched
`InvalidData` error. -/
theorem c7_bad_trailer_latched_witness :
    chunkRead 5 ⟨false, false, some ⟨.invalidData, "x"⟩, 3, ⟨[], [65]⟩⟩ 10 =
      some (⟨false, false, some ⟨.invalidData, "x"⟩, 3, ⟨[], [65]⟩⟩,
        .error ⟨.invalidData, "x"⟩, []) ∧
    chunkRead 5 ⟨true, false, none, 0, ⟨[], [65, 66, 67]⟩⟩ 10 =
      some (⟨true, false, some ⟨.invalidData, "Malformed chunked encoding"⟩, 0,
              (BufRd.readExact ⟨[], [65, 66, 67]⟩ 2).2⟩,
            .error ⟨.invalidData, "Malformed chunked encoding"⟩, []) :=
  ⟨c7_bad_trailer_latched.1 _ ⟨.invalidData, "x"⟩ 10 5 (by norm_num) rfl,
    c7_bad_trailer_latched.2 [] [65, 66, 67] [67] 65 66 0 10 5 (by norm_num)
      rfl (by decide)⟩

end HttpReq
